import Mathlib

/-!
Verification development for the `git-branch-stash` repository.

The development shallowly embeds the two core subsystems:

* the snapshot model (`crates/git-branch-stash/src/snapshot.rs`) together with
  the repository facade operations it uses (`crates/git-branch-stash/src/git.rs`,
  `crates/git-branch-stash/src/git/repo.rs`), and
* the branch-graph builder (`src/graph/node.rs`).

Machine-level details that the claims do not depend on (byte-level file I/O,
the textual JSON grammar, libgit2 internals) are modelled at the value level;
commit ids on the graph side are natural numbers and the commit graph is a
parent function, with each parent strictly smaller than its child so that
ancestry walks terminate.
-/

/-! ### String ordering

Rust compares `String`s lexicographically by bytes.  Lean's built-in `String`
order does not reduce inside the kernel, so the development uses its own
lexicographic comparison on the underlying character list (identical to the
Rust order for the ASCII names used throughout).
-/

/-- Lexicographic strict order on character lists, mirroring Rust `str` `Ord`. -/
def charListLt : List Char → List Char → Bool
  | _, [] => false
  | [], _ :: _ => true
  | a :: xs, b :: ys => if a < b then true else if b < a then false else charListLt xs ys

/-- Strict lexicographic order on strings (Rust `String` `Ord`). -/
def strLtB (a b : String) : Bool := charListLt a.data b.data

/-- Reflexive lexicographic order on strings. -/
def strLeB (a b : String) : Bool := strLtB a b || a == b

/-! ### Commit ids and their hex text form

`git2::Oid` is a 20-byte object id.  It is modelled as a list of byte values;
`oidToString` is `Oid::to_string` (40 lowercase hex characters) and
`oidFromStr` is `Oid::from_str` restricted to the full-length form, the only
form the snapshot serializer ever emits.
-/

/-- A commit id: the 20 raw bytes of a `git2::Oid`. -/
abbrev Oid := List Nat

/-- The all-zero id produced by `git2::Oid::zero()`. -/
def Oid.zero : Oid := List.replicate 20 0

/-- Lowercase hex digit for a nibble, as printed by `git2::Oid::to_string`. -/
def hexChar (d : Nat) : Char :=
  if d < 10 then Char.ofNat (48 + d) else Char.ofNat (87 + d)

/-- Value of a hex digit character, as accepted by `git2::Oid::from_str`. -/
def hexVal (c : Char) : Option Nat :=
  if 48 ≤ c.toNat ∧ c.toNat ≤ 57 then some (c.toNat - 48)
  else if 97 ≤ c.toNat ∧ c.toNat ≤ 102 then some (c.toNat - 87)
  else if 65 ≤ c.toNat ∧ c.toNat ≤ 70 then some (c.toNat - 55)
  else none

/-- Two hex characters for one byte. -/
def byteToHex (b : Nat) : List Char := [hexChar (b / 16), hexChar (b % 16)]

/-- `git2::Oid::to_string`: the canonical 40-character lowercase hex form. -/
def oidToString (id : Oid) : String := ⟨(id.map byteToHex).flatten⟩

/-- Parse pairs of hex characters back into bytes. -/
def parseHexBytes : List Char → Option (List Nat)
  | [] => some []
  | [_] => none
  | c1 :: c2 :: rest =>
    match hexVal c1, hexVal c2, parseHexBytes rest with
    | some h, some l, some bs => some ((16 * h + l) :: bs)
    | _, _, _ => none

/-- `git2::Oid::from_str` on the canonical full-length form: 40 hex characters
give the 20 bytes; anything else is rejected.  (The short-form prefix padding
of libgit2 is never exercised by the snapshot format, which always writes the
full 40 characters.) -/
def oidFromStr (s : String) : Option Oid :=
  if s.data.length = 40 then parseHexBytes s.data else none

/-- Well-formed commit id: 20 bytes, each below 256. -/
def wfOid (id : Oid) : Prop := id.length = 20 ∧ ∀ b ∈ id, b < 256

/-! ### JSON values

`serde_json::Value`, at the value level.  `Snapshot::save` pretty-prints such a
value to a file and `Snapshot::load` parses it back; the byte-level printing
and parsing of `serde_json` is the external library boundary, so persistence
round trips are stated on the value produced by serialization.
-/

/-- A `serde_json::Value`. -/
inductive Json where
  | null
  | bool (b : Bool)
  | num (n : Int)
  | str (s : String)
  | arr (elems : List Json)
  | obj (fields : List (String × Json))

/-- Field lookup in a serialized object, as a serde struct deserializer does. -/
def getField (fs : List (String × Json)) (k : String) : Option Json :=
  (fs.find? (fun p => decide (p.1 = k))).map (fun p => p.2)

/-- `BTreeMap` insertion on an association list kept sorted by key: earlier
keys stay, an equal key is overwritten, a larger key moves right. -/
def mapInsert : List (String × Json) → String → Json → List (String × Json)
  | [], k, v => [(k, v)]
  | (k1, v1) :: rest, k, v =>
    if strLtB k k1 then (k, v) :: (k1, v1) :: rest
    else if k = k1 then (k, v) :: rest
    else (k1, v1) :: mapInsert rest k v

/-- Deserializing a JSON object into a `BTreeMap`: fold the fields into an
ordered map. -/
def mapOfFields (fs : List (String × Json)) : List (String × Json) :=
  fs.foldl (fun m kv => mapInsert m kv.1 kv.2) []

/-- Keys strictly ascending, the shape in which a `BTreeMap` serializes. -/
def strictKeys (m : List (String × Json)) : Prop :=
  m.Pairwise (fun a b => strLtB a.1 b.1 = true)

/-! ### The snapshot model (`crates/git-branch-stash/src/snapshot.rs`)

`Branch` is `snapshot::Branch` (name, commit id, metadata map); `Snapshot` is
the list of branch records plus top-level metadata.  `toJson` is the serde
`Serialize` derivation together with the `serialize_oid` helper and the
`skip_serializing_if = is_empty` / `default` attributes on the metadata maps;
`fromJson` is the `Deserialize` derivation with `deserialize_oid`.
-/

/-- `snapshot::Branch`: state of an individual branch. -/
structure Branch where
  name : String
  id : Oid
  metadata : List (String × Json)

/-- `Snapshot`: state of all branches. -/
structure Snapshot where
  branches : List Branch
  metadata : List (String × Json)

/-- `serialize_oid`: a commit id serializes as its canonical hex text. -/
def serialize_oid (id : Oid) : Json := Json.str (oidToString id)

/-- `deserialize_oid`: read a string and parse it with `Oid::from_str`. -/
def deserialize_oid (j : Json) : Option Oid :=
  match j with
  | Json.str s => oidFromStr s
  | _ => none

/-- Serde serialization of one branch record (fields in declaration order;
the metadata field is omitted when empty). -/
def Branch.toJson (b : Branch) : Json :=
  Json.obj ([(("name"), Json.str b.name), (("id"), serialize_oid b.id)] ++
    (if b.metadata.isEmpty then [] else [(("metadata"), Json.obj b.metadata)]))

/-- Serde deserialization of one branch record (metadata defaults to empty). -/
def Branch.fromJson (j : Json) : Option Branch :=
  match j with
  | Json.obj fs =>
    match getField fs ("name"), getField fs ("id") with
    | some (Json.str name), some idj =>
      match deserialize_oid idj with
      | some id =>
        match getField fs ("metadata") with
        | none => some ⟨name, id, []⟩
        | some (Json.obj mfs) => some ⟨name, id, mapOfFields mfs⟩
        | some _ => none
      | none => none
    | _, _ => none
  | _ => none

/-- Serde serialization of a whole snapshot. -/
def Snapshot.toJson (s : Snapshot) : Json :=
  Json.obj ([(("branches"), Json.arr (s.branches.map Branch.toJson))] ++
    (if s.metadata.isEmpty then [] else [(("metadata"), Json.obj s.metadata)]))

/-- Serde's sequence deserialization loop: every element must deserialize. -/
def branchSeqFromJson : List Json → Option (List Branch)
  | [] => some []
  | j :: rest =>
    match Branch.fromJson j, branchSeqFromJson rest with
    | some b, some bs => some (b :: bs)
    | _, _ => none

/-- Serde deserialization of a whole snapshot. -/
def Snapshot.fromJson (j : Json) : Option Snapshot :=
  match j with
  | Json.obj fs =>
    match getField fs ("branches") with
    | some (Json.arr elems) =>
      match branchSeqFromJson elems with
      | some bs =>
        match getField fs ("metadata") with
        | none => some ⟨bs, []⟩
        | some (Json.obj mfs) => some ⟨bs, mapOfFields mfs⟩
        | some _ => none
      | none => none
    | _ => none
  | _ => none

/-- Well-formed snapshot: ids are real 20-byte object ids, and the metadata
maps are in `BTreeMap` order (the only shape `save` ever writes). -/
def wfSnapshot (s : Snapshot) : Prop :=
  (∀ b ∈ s.branches, wfOid b.id ∧ strictKeys b.metadata) ∧ strictKeys s.metadata

/-! ### Repository state for the restore protocol

`Snapshot::apply` mutates the repository through `GitRepo` (git.rs): it reads
`head_branch` and `find_local_branch`, and performs `detach`, `branch`
(create/force-retarget) and `switch` (set HEAD + forced checkout).  The state
is the local branch table, the set of readable commits, and HEAD.  The working
tree contents touched by the forced checkout carry no information the claims
depend on and are not part of the state.
-/

/-- `HEAD`: attached to a named branch, or detached at a commit. -/
inductive Head where
  | attached (name : String)
  | detached (id : Oid)
deriving DecidableEq

/-- The repository state visible to and mutated by `Snapshot::apply`. -/
structure RState where
  branches : List (String × Oid)
  commits : List Oid
  head : Head
deriving DecidableEq

/-- One primitive ref-store operation, recorded for protocol-order claims. -/
inductive RefOp where
  | detachOp
  | branchOp (name : String) (id : Oid)
  | switchOp (name : String)
deriving DecidableEq

/-- Errors surfaced by the facade operations during a restore. -/
inductive ApplyErr where
  | missingCommit (id : Oid)
  | missingBranch (name : String)
  | unresolvedHead
deriving DecidableEq

/-- `GitRepo::find_local_branch`, reduced to the branch target id. -/
def findLocalBranch (r : RState) (name : String) : Option Oid :=
  (r.branches.find? (fun p => decide (p.1 = name))).map (fun p => p.2)

/-- `GitRepo::head_branch`, reduced to the branch name and id.  A detached
HEAD resolves to the pseudo-name `HEAD` in libgit2, which can never equal a
local branch name, so it is modelled as `none`. -/
def head_branch (r : RState) : Option (String × Oid) :=
  match r.head with
  | Head.attached n => (findLocalBranch r n).map (fun i => (n, i))
  | Head.detached _ => none

/-- Update-or-append on the branch table. -/
def setBranch : List (String × Oid) → String → Oid → List (String × Oid)
  | [], n, i => [(n, i)]
  | (n1, i1) :: rest, n, i =>
    if n1 = n then (n, i) :: rest else (n1, i1) :: setBranch rest n i

/-- `GitRepo::branch` (git.rs lines 111-115): look up the commit (erroring if
it is not in the object store), then create or force-retarget the branch. -/
def branchSet (r : RState) (name : String) (id : Oid) : Except ApplyErr RState :=
  if id ∈ r.commits then Except.ok { r with branches := setBranch r.branches name id }
  else Except.error (ApplyErr.missingCommit id)

/-- `GitRepo::detach` (git.rs lines 191-202): resolve the current HEAD commit
and set HEAD detached to it.  The `unwrap` chain on an unresolvable HEAD is a
panic in the source; it surfaces here as `unresolvedHead`. -/
def detach (r : RState) : Except ApplyErr RState :=
  match r.head with
  | Head.detached i => Except.ok { r with head := Head.detached i }
  | Head.attached n =>
    match findLocalBranch r n with
    | some i => Except.ok { r with head := Head.detached i }
    | none => Except.error ApplyErr.unresolvedHead

/-- `GitRepo::switch` (git.rs lines 204-212): find the local branch, attach
HEAD to it, and force-checkout the working tree. -/
def switch (r : RState) (name : String) : Except ApplyErr RState :=
  match findLocalBranch r name with
  | some _ => Except.ok { r with head := Head.attached name }
  | none => Except.error (ApplyErr.missingBranch name)

/-- The planning loop of `Snapshot::apply` (snapshot.rs lines 53-63): a record
whose branch already points at the recorded id is skipped; a missing branch
contributes the synthetic zero id as old id. -/
def planned_changes (r : RState) : List Branch → List (Oid × Oid × String)
  | [] => []
  | b :: rest =>
    match findLocalBranch r b.name with
    | some eid =>
      if eid = b.id then planned_changes r rest
      else (eid, b.id, b.name) :: planned_changes r rest
    | none => (Oid.zero, b.id, b.name) :: planned_changes r rest

/-- One iteration of the apply loop (snapshot.rs lines 77-87): the change whose
name matches the current HEAD branch name goes through detach, retarget,
switch; every other change is a plain retarget/create. -/
def runChange (headName : Option String) (ch : Oid × Oid × String) (st : RState) :
    Except ApplyErr (RState × List RefOp) :=
  let name := ch.2.2
  let newId := ch.2.1
  if headName = some name then
    match detach st with
    | Except.error e => Except.error e
    | Except.ok st1 =>
      match branchSet st1 name newId with
      | Except.error e => Except.error e
      | Except.ok st2 =>
        match switch st2 name with
        | Except.error e => Except.error e
        | Except.ok st3 =>
          Except.ok (st3, [RefOp.detachOp, RefOp.branchOp name newId, RefOp.switchOp name])
  else
    match branchSet st name newId with
    | Except.error e => Except.error e
    | Except.ok st2 => Except.ok (st2, [RefOp.branchOp name newId])

/-- The apply loop over the planned changes.  Ref updates take effect on the
repository as they are made; on the first failure the loop stops, and the
state reached so far remains. -/
def applyChanges (headName : Option String) :
    List (Oid × Oid × String) → RState → List RefOp →
    Option ApplyErr × RState × List RefOp
  | [], st, tr => (none, st, tr)
  | ch :: rest, st, tr =>
    match runChange headName ch st with
    | Except.ok (st1, ops) => applyChanges headName rest st1 (tr ++ ops)
    | Except.error e => (some e, st, tr)

/-- Result of `Snapshot::apply`.  `txnCommitted` records whether
`transaction.committed()` was reached; otherwise the reference-transaction
hook scope is dropped, which reports an abort to the hook. -/
structure ApplyOutcome where
  err : Option ApplyErr
  state : RState
  txnCommitted : Bool
  trace : List RefOp
deriving DecidableEq

/-- `Snapshot::apply` (snapshot.rs lines 49-92): read the HEAD branch name,
plan the changes, open the reference-transaction hook scope (the hook run
itself is external and modelled as succeeding), run the loop, and mark the
transaction committed only if every change succeeded. -/
def Snapshot.apply (s : Snapshot) (r : RState) : ApplyOutcome :=
  let headName := (head_branch r).map (fun p => p.1)
  let planned := planned_changes r s.branches
  match applyChanges headName planned r [] with
  | (none, st, tr) => ⟨none, st, true, tr⟩
  | (some e, st, tr) => ⟨some e, st, false, tr⟩

/-- Concrete repository for the atomicity counterexample: branches `a`, `b`;
the target commit of the snapshot record for `b` is absent from the store. -/
def cexRepo : RState :=
  ⟨[(("a"), List.replicate 20 1), (("b"), List.replicate 20 2)],
   [List.replicate 20 1, List.replicate 20 2, List.replicate 20 3],
   Head.detached (List.replicate 20 1)⟩

/-- Snapshot moving `a` to an existing commit and `b` to a missing one. -/
def cexSnap : Snapshot :=
  ⟨[⟨("a"), List.replicate 20 3, []⟩, ⟨("b"), List.replicate 20 4, []⟩], []⟩


/-- Repository whose branch table already matches `matchSnap`. -/
def matchRepo : RState :=
  ⟨[(("a"), List.replicate 20 1)], [List.replicate 20 1], Head.attached ("a")⟩

/-- Snapshot recording exactly the state of `matchRepo`. -/
def matchSnap : Snapshot := ⟨[⟨("a"), List.replicate 20 1, []⟩], []⟩

/-- Repository with HEAD attached to branch `a`, for the HEAD-change protocol. -/
def aRepo : RState :=
  ⟨[(("a"), List.replicate 20 1)], [List.replicate 20 1, List.replicate 20 2],
   Head.attached ("a")⟩

/-- Snapshot moving the checked-out branch `a` to another commit. -/
def aSnap : Snapshot := ⟨[⟨("a"), List.replicate 20 2, []⟩], []⟩

/-- Repository that does not have the branch `c` recorded by `missSnap`. -/
def missRepo : RState :=
  ⟨[(("a"), List.replicate 20 1)], [List.replicate 20 1, List.replicate 20 2],
   Head.attached ("a")⟩

/-- Snapshot referencing a branch absent from `missRepo`. -/
def missSnap : Snapshot := ⟨[⟨("c"), List.replicate 20 2, []⟩], []⟩

/-- Sample commit id for the serialization round trip. -/
def sampleOid : Oid := (List.range 20).map (fun i => i + 100)

/-- Sample snapshot exercising both metadata maps. -/
def sampleSnapshot : Snapshot :=
  ⟨[⟨("main"), sampleOid, [(("summary"), Json.str ("hello"))]⟩],
   [(("message"), Json.str ("msg"))]⟩


/-! ### Read-side repository facade for snapshot capture

`Snapshot::from_repo` only reads: it enumerates local branches and reads each
tip commit's one-line summary.  `ReadRepo` is that read-only surface; since
`from_repo` is a pure function of it, capture performs no repository mutation
by construction.
-/

/-- A branch as enumerated from the backing ref store; `name` is `none` when
the refname bytes do not decode as UTF-8 (`branch.name()` yields no text). -/
structure RawBranch where
  name : Option String
  id : Oid

/-- The read-only repository surface used by `Snapshot::from_repo`: the result
of enumerating local branches (the enumeration itself can fail), and each
commit's one-line summary after lossy UTF-8 decoding (`none` when the commit
cannot be read, in which case the source `unwrap` panics). -/
structure ReadRepo where
  branchesResult : Except Unit (List RawBranch)
  summary : Oid → Option String

/-- `GitRepo::local_branches` (git.rs lines 146-189): an enumeration failure
yields no items — the `Result` is flattened into an empty iterator — and a
branch whose name is not valid UTF-8 is skipped with a debug log. -/
def local_branches (r : ReadRepo) : List (String × Oid) :=
  match r.branchesResult with
  | Except.error _ => []
  | Except.ok bs => bs.filterMap (fun b => b.name.map (fun n => (n, b.id)))

/-- Lexicographic strict order on raw id bytes (`git2::Oid` `Ord`). -/
def oidLtB : List Nat → List Nat → Bool
  | _, [] => false
  | [], _ :: _ => true
  | a :: xs, b :: ys => if a < b then true else if b < a then false else oidLtB xs ys

/-- The `Ord` implementation of `snapshot::Branch` (snapshot.rs lines 132-142):
compare `(name, id)` lexicographically; metadata is not compared. -/
def branchLe (a b : Branch) : Bool :=
  strLtB a.name b.name ||
    (decide (a.name = b.name) && (oidLtB a.id b.id || decide (a.id = b.id)))

/-- Insertion into a `branchLe`-sorted list. -/
def insertBranch (b : Branch) : List Branch → List Branch
  | [] => [b]
  | c :: rest => if branchLe c b then c :: insertBranch b rest else b :: c :: rest

/-- The `sort_unstable` call of `from_repo`, as an insertion sort: a
permutation ordered by `branchLe`.  (Which permutation `sort_unstable` picks
on equal keys is unspecified; records comparing equal here have equal name and
id.) -/
def sortBranches : List Branch → List Branch
  | [] => []
  | b :: rest => insertBranch b (sortBranches rest)

/-- Build the snapshot branch records (snapshot.rs lines 28-42): each tip's
summary is read with `find_commit(b.id).unwrap()` — `none` here marks the
panic of that unwrap. -/
def readBranchRecords (r : ReadRepo) : List (String × Oid) → Option (List Branch)
  | [] => some []
  | (n, i) :: rest =>
    match r.summary i, readBranchRecords r rest with
    | some s, some bs => some (⟨n, i, [(("summary"), Json.str s)]⟩ :: bs)
    | _, _ => none

/-- `Snapshot::from_repo` (snapshot.rs lines 27-46): collect a record for
every enumerated local branch, sort by `(name, id)`, return them with empty
top-level metadata.  The outer `Option` is `none` when a summary unwrap would
panic; the inner `Except` is the function's `Result`, which the body never
fills with an error. -/
def Snapshot.from_repo (r : ReadRepo) : Option (Except Unit Snapshot) :=
  match readBranchRecords r (local_branches r) with
  | none => none
  | some bs => some (Except.ok ⟨sortBranches bs, []⟩)

/-- Repository whose branch enumeration itself fails. -/
def failRepo : ReadRepo := ⟨Except.error (), fun _ => none⟩

/-- Repository with two decodable branches (out of name order) and one
undecodable branch. -/
def okRepo : ReadRepo :=
  ⟨Except.ok [⟨some ("b"), List.replicate 20 1⟩, ⟨none, List.replicate 20 9⟩,
    ⟨some ("a"), List.replicate 20 2⟩],
   fun _ => some ("s")⟩


/-! ### The commit graph for the graph builder (`src/graph/node.rs`)

The builder consumes the `Repo` trait of the root crate (commit lookup,
`merge_base`, `commits_from`) and the `Branches` index; neither is among the
sources here, so they are modelled: commits are naturals with an explicit
parent function (each parent strictly smaller than its child, so ancestry
walks terminate), `merge_base` is the nearest common ancestor on that tree,
and `commits_from` is the ancestor chain, newest first — the topological walk
of single-parent history.
-/

/-- The repository facade consumed by the graph builder. -/
structure CRepo where
  parent : Nat → Option Nat
  parent_lt : ∀ c p, parent c = some p → p < c

/-- Ancestor chain walk with explicit fuel; the fuel is always sufficient
because parent ids strictly decrease. -/
def ancestryFuel (r : CRepo) : Nat → Nat → List Nat
  | 0, c => [c]
  | f + 1, c =>
    match r.parent c with
    | none => [c]
    | some p => c :: ancestryFuel r f p

/-- The ancestor chain of a commit, the commit itself first. -/
def CRepo.ancestry (r : CRepo) (c : Nat) : List Nat := ancestryFuel r c c

/-- `Repo::merge_base`: the nearest common ancestor — the first ancestor of
`a` that is also an ancestor of `b` — or `none` when histories are disjoint. -/
def merge_base (r : CRepo) (a b : Nat) : Option Nat :=
  (r.ancestry a).find? (fun x => (r.ancestry b).contains x)

/-- `Repo::commits_from`: the walk from a head, newest first. -/
def commits_from (r : CRepo) (head : Nat) : List Nat := r.ancestry head

/-- The root of a commit's history: the last commit of its ancestor chain. -/
def croot (r : CRepo) (c : Nat) : Nat := (r.ancestry c).getLastD c

/-- Modelled from the spec: the Branch Index of `crate::git::Branches`, whose
definition is not among the sources here — "a multimap from commit id to the
ordered set of branch names whose tip is that commit", held in map order and
consumed destructively.  Represented as an association list. -/
abbrev Branches := List (Nat × List String)

/-- `Branches::is_empty`. -/
def biIsEmpty (bi : Branches) : Bool := bi.isEmpty

/-- `Branches::oids`: the keys, in map order. -/
def biOids (bi : Branches) : List Nat := bi.map (fun p => p.1)

/-- `Branches::get`. -/
def biGet (bi : Branches) (id : Nat) : Option (List String) :=
  (bi.find? (fun p => p.1 == id)).map (fun p => p.2)

/-- `Branches::remove`: take an entry out of the index. -/
def biRemove : Branches → Nat → Option (List String) × Branches
  | [], _ => (none, [])
  | (k, ns) :: rest, id =>
    if k = id then (some ns, rest)
    else
      let pr := biRemove rest id
      (pr.1, (k, ns) :: pr.2)

/-- A node of the builder's output tree (`Node` in node.rs): commit id, the
branches whose tip is that commit, and the child stacks (named `stks` here).
The `action` and `pushable` fields of the source are constants (`Pick`,
`false`) that none of the embedded functions read or write, and are omitted. -/
inductive Node where
  | mk (id : Nat) (branches : List String) (stks : List (List Node))

/-- The commit id of a node. -/
def Node.id : Node → Nat
  | Node.mk i _ _ => i

/-- The branches attached to a node. -/
def Node.branches : Node → List String
  | Node.mk _ bs _ => bs

/-- The child stacks of a node. -/
def Node.stks : Node → List (List Node)
  | Node.mk _ _ st => st

/-- Failure conditions of graph construction: the explicit errors of
`from_branches` / `insert` / `populate`, plus a marker for the source's
`assert!` / `unwrap` / `expect` panics (not `Result` errors in Rust; they must
never fire). -/
inductive GErr where
  | noBranches
  | noMergeBase
  | notDescendant
  | assertFail
deriving DecidableEq

/-- Graph construction result monad. -/
abbrev GM (α : Type) := Except GErr α

/-- `Node::new` (node.rs lines 13-28): take the branches at the commit out of
the index; no child stacks yet. -/
def Node.new (id : Nat) (bi : Branches) : Node × Branches :=
  let pr := biRemove bi id
  (Node.mk id (pr.1.getD []) [], pr.2)

/-- The branch-moving zip loop at the top of `merge_stack` (node.rs lines
192-199): along the common id prefix, the right side's branches move onto the
left side. -/
def moveBranches : List Node → List Node → List Node × List Node
  | ls, [] => (ls, [])
  | [], rr :: rs => ([], rr :: rs)
  | l :: ls, rr :: rs =>
    if l.id = rr.id then
      let pr := moveBranches ls rs
      (Node.mk l.id (l.branches ++ rr.branches) l.stks :: pr.1,
       Node.mk rr.id [] rr.stks :: pr.2)
    else (l :: ls, rr :: rs)

/-- Length of the common id prefix of two stacks; the `zip_longest` search of
node.rs lines 201-212 diverges exactly at this position. -/
def commonLen : List Node → List Node → Nat
  | l :: ls, rr :: rs => if l.id = rr.id then commonLen ls rs + 1 else 0
  | _, _ => 0

/-- Apply a function to the last element (`last_mut`). -/
def updateLast (f : Node → Node) : List Node → List Node
  | [] => []
  | [n] => [f n]
  | n :: rest => n :: updateLast f rest

/-- Total node count across the top level of a list of stacks. -/
def stacksLen (sts : List (List Node)) : Nat := (sts.map List.length).sum

/-- The inner loop of `merge_stacks` (node.rs lines 169-174): try the incoming
stack against each existing child stack until it has been absorbed. -/
def tryMergeWith (ms : List Node → List Node → GM (List Node × List Node)) :
    List (List Node) → List Node → GM (List (List Node) × List Node)
  | [], rs => Except.ok ([], rs)
  | s :: ss, rs => do
    let pr ← ms s rs
    match pr.2 with
    | [] => Except.ok (pr.1 :: ss, [])
    | _ :: _ => do
      let pr2 ← tryMergeWith ms ss pr.2
      Except.ok (pr.1 :: pr2.1, pr2.2)

/-- The outer loop of `merge_stacks` (node.rs lines 166-178): each incoming
stack is asserted non-empty, merged against the existing stacks, and appended
as a new sibling if it survives. -/
def msLoopWith (tm : List (List Node) → List Node → GM (List (List Node) × List Node)) :
    List (List Node) → List (List Node) → GM (List (List Node))
  | lhsStks, [] => Except.ok lhsStks
  | lhsStks, rs :: rss =>
    if rs.isEmpty then Except.error GErr.assertFail
    else do
      let pr ← tm lhsStks rs
      match pr.2 with
      | [] => msLoopWith tm pr.1 rss
      | _ :: _ => msLoopWith tm (pr.1 ++ [pr.2]) rss

/-- `merge_stack` (node.rs lines 182-238), parameterized by the lower-fuel
`merge_stacks` used for the mid-stack recursion: move branches along the
common prefix, then dispatch on where the zip diverges — both-sides
divergence at index 0 is "not a good merge candidate" (the incoming stack is
returned untouched), a deeper both-sides divergence splits the incoming stack
and recurses into the node before the split (asserting the split-off node has
no child stacks), an exhausted left side appends the remainder beneath the
last left node, and an exhausted right side means the left is a superset. -/
def mergeStackBody (msPrev : Node → Node → GM Node)
    (lhs rhs : List Node) : GM (List Node × List Node) :=
  if lhs.isEmpty then Except.error GErr.assertFail
  else if rhs.isEmpty then Except.error GErr.assertFail
  else
    let pr := moveBranches lhs rhs
    let ls := pr.1
    let rs := pr.2
    let k := commonLen ls rs
    if k = rs.length then Except.ok (ls, [])
    else if k = ls.length then
      Except.ok (updateLast (fun n => Node.mk n.id n.branches (n.stks ++ [rs.drop k])) ls, [])
    else if k = 0 then Except.ok (ls, rs)
    else
      match (rs.take k).getLast? with
      | none => Except.error GErr.assertFail
      | some popped =>
        if popped.stks.isEmpty then
          match ls.get? (k - 1) with
          | none => Except.error GErr.assertFail
          | some lnode => do
            let merged ← msPrev lnode (Node.mk popped.id popped.branches [rs.drop k])
            Except.ok (ls.set (k - 1) merged, [])
        else Except.error GErr.assertFail

/-- `merge_stacks` (node.rs lines 163-179), parameterized by the
`merge_stack` of the same fuel level: assert equal commit ids, then run the
stack loops. -/
def mergeStacksBody (mstk : List Node → List Node → GM (List Node × List Node))
    (lhs rhs : Node) : GM Node :=
  if lhs.id ≠ rhs.id then Except.error GErr.assertFail
  else do
    let stks2 ← msLoopWith (tryMergeWith mstk) lhs.stks rhs.stks
    Except.ok (Node.mk lhs.id lhs.branches stks2)

/-- Fuel-indexed pair of `merge_stacks` (first component) and `merge_stack`
(second component); each pass from `merge_stack` back into `merge_stacks`
steps down one fuel level.  The wrappers below always supply sufficient fuel,
so the out-of-fuel branch is unreachable from them. -/
def mergeStepF : Nat → (Node → Node → GM Node) × (List Node → List Node → GM (List Node × List Node))
  | 0 => (fun _ _ => Except.error GErr.assertFail, fun _ _ => Except.error GErr.assertFail)
  | f + 1 =>
    let prev := mergeStepF f
    let mstk := mergeStackBody prev.1
    (mergeStacksBody mstk, mstk)

/-- `merge_stacks` (node.rs line 163). -/
def merge_stacks (lhs rhs : Node) : GM Node :=
  (mergeStepF (2 * stacksLen rhs.stks + 1)).1 lhs rhs

/-- `merge_stack` (node.rs line 182). -/
def merge_stack (lhs rhs : List Node) : GM (List Node × List Node) :=
  (mergeStepF (2 * rhs.length)).2 lhs rhs

/-- `Node::merge` (node.rs lines 154-160): move the other's branches onto
self, then merge the stacks. -/
def Node.merge (self other : Node) : GM Node :=
  merge_stacks (Node.mk self.id (self.branches ++ other.branches) self.stks)
    (Node.mk other.id [] other.stks)

mutual
/-- `Node::push` (node.rs lines 137-152): merge `other` into the first node
of the tree with the same commit id; `none` when no node matches. -/
def Node.push : Node → Node → GM (Option Node)
  | Node.mk i bs st, other =>
    if i = other.id then
      (Node.merge (Node.mk i bs st) other).map some
    else do
      match ← pushStks st other with
      | some st2 => Except.ok (some (Node.mk i bs st2))
      | none => Except.ok none

/-- `push` over the stack list. -/
def pushStks : List (List Node) → Node → GM (Option (List (List Node)))
  | [], _ => Except.ok none
  | s :: ss, other => do
    match ← pushStack s other with
    | some s2 => Except.ok (some (s2 :: ss))
    | none =>
      match ← pushStks ss other with
      | some ss2 => Except.ok (some (s :: ss2))
      | none => Except.ok none

/-- `push` over one stack. -/
def pushStack : List Node → Node → GM (Option (List Node))
  | [], _ => Except.ok none
  | n :: ns, other => do
    match ← Node.push n other with
    | some n2 => Except.ok (some (n2 :: ns))
    | none =>
      match ← pushStack ns other with
      | some ns2 => Except.ok (some (n :: ns2))
      | none => Except.ok none
end

/-- Create nodes for a run of commit ids in order, threading the index
(the `map` over the revwalk in `populate`). -/
def mkNodes : List Nat → Branches → List Node × Branches
  | [], bi => ([], bi)
  | i :: rest, bi =>
    let pr := Node.new i bi
    let pr2 := mkNodes rest pr.2
    (pr.1 :: pr2.1, pr2.2)

/-- `Node::populate` (node.rs lines 93-135): require `base` to be an ancestor
of `head` (two explicit `git2` errors otherwise), then build the node for
`base` with one child stack holding the commits strictly after `base` on
`head`'s line, oldest first, attaching branches from the index as each node
is created.  The `delinearize_stack` call is modelled from the spec: the
spec's construction step (§4.1 step 3) describes the freshly built linear run
being attached as-is, so it is the identity on the linear stack built here. -/
def populate (r : CRepo) (base head : Nat) (bi : Branches) : GM (Node × Branches) :=
  match merge_base r base head with
  | none => Except.error GErr.noMergeBase
  | some mb =>
    if mb ≠ base then Except.error GErr.notDescendant
    else
      let pr := Node.new base bi
      let ids := (commits_from r head).takeWhile (fun x => x != base)
      let pr2 := mkNodes ids pr.2
      let stack := pr2.1.reverse
      if stack.isEmpty then Except.ok (pr.1, pr2.2)
      else Except.ok (Node.mk pr.1.id pr.1.branches (pr.1.stks ++ [stack]), pr2.2)

/-- `Node::insert` (node.rs lines 51-74): find the merge base with the new
tip (an explicit error when there is none); if it is not the current root's
commit, build a prefix from the merge base down to the root and push the
existing tree into it (the `pushed` assert); then populate the new tip's side
and merge it in. -/
def Node.insert (self : Node) (r : CRepo) (otherId : Nat) (bi : Branches) :
    GM (Node × Branches) :=
  match merge_base r self.id otherId with
  | none => Except.error GErr.noMergeBase
  | some mb =>
    if mb ≠ self.id then do
      let pr ← populate r mb self.id bi
      match ← Node.push pr.1 self with
      | some pre2 => do
        let pr2 ← populate r mb otherId pr.2
        let merged ← Node.merge pre2 pr2.1
        Except.ok (merged, pr2.2)
      | none => Except.error GErr.assertFail
    else do
      let pr2 ← populate r self.id otherId bi
      let merged ← Node.merge self pr2.1
      Except.ok (merged, pr2.2)

/-- The sort key of `from_branches` and `extend` (node.rs lines 39 and 83):
`branches.get(*id).unwrap()[0].name`.  The unwrap and the indexing panic on a
key without a non-empty entry; for the well-formed indexes assumed by the
claims (every key present with a non-empty, name-sorted list) the default
value is never reached. -/
def sortKey (bi : Branches) (id : Nat) : String :=
  ((biGet bi id).getD []).headD ("")

/-- Stable insertion by `sortKey` (`sort_by_key` is a stable sort). -/
def insertSorted (bi : Branches) (x : Nat) : List Nat → List Nat
  | [] => [x]
  | y :: ys =>
    if strLeB (sortKey bi y) (sortKey bi x) then y :: insertSorted bi x ys
    else x :: y :: ys

/-- The `sort_by_key` call on the key list. -/
def sortOids (bi : Branches) : List Nat → List Nat
  | [] => []
  | x :: xs => insertSorted bi x (sortOids bi xs)

/-- The insertion loop shared by `from_branches` and `extend`. -/
def insertAll (r : CRepo) : Node → List Nat → Branches → GM Node
  | root, [], _ => Except.ok root
  | root, id :: rest, bi => do
    let pr ← Node.insert root r id bi
    insertAll r pr.1 rest pr.2

/-- `Node::from_branches` (node.rs lines 30-49): an explicit error on an
empty index; otherwise sort the tips by the first branch name at each tip,
seed the root from the first tip, and insert the rest in order. -/
def from_branches (r : CRepo) (bi : Branches) : GM Node :=
  if biIsEmpty bi then Except.error GErr.noBranches
  else
    match sortOids bi (biOids bi) with
    | [] => Except.error GErr.assertFail
    | first :: rest =>
      let pr := Node.new first bi
      insertAll r pr.1 rest pr.2

/-- `Node::extend` (node.rs lines 76-91): insert every tip of a further index
into an existing tree, in the same sorted order; an empty index is a no-op. -/
def Node.extend (self : Node) (r : CRepo) (bi : Branches) : GM Node :=
  if biIsEmpty bi then Except.ok self
  else insertAll r self (sortOids bi (biOids bi)) bi

mutual
/-- All commit ids in a tree, preorder. -/
def Node.ids : Node → List Nat
  | Node.mk i _ st => i :: stksIds st

/-- All commit ids in a list of stacks. -/
def stksIds : List (List Node) → List Nat
  | [] => []
  | s :: ss => stackIds s ++ stksIds ss

/-- All commit ids in one stack. -/
def stackIds : List Node → List Nat
  | [] => []
  | n :: ns => Node.ids n ++ stackIds ns
end

mutual
/-- All branch names in a tree. -/
def Node.allBranches : Node → List String
  | Node.mk _ bs st => bs ++ stksBranches st

/-- All branch names in a list of stacks. -/
def stksBranches : List (List Node) → List String
  | [] => []
  | s :: ss => stackBranches s ++ stksBranches ss

/-- All branch names in one stack. -/
def stackBranches : List Node → List String
  | [] => []
  | n :: ns => Node.allBranches n ++ stackBranches ns
end

/-- Parent table from an association list of (child, parent) pairs. -/
def listParent (l : List (Nat × Nat)) (c : Nat) : Option Nat :=
  (l.find? (fun p => p.1 == c)).map (fun p => p.2)

/-- Any association-list parent table whose entries all decrease yields a
valid parent function. -/
def listParent_lt (l : List (Nat × Nat)) (h : ∀ p ∈ l, p.2 < p.1) :
    ∀ c q, listParent l c = some q → q < c := fun c q hc => by
  unfold listParent at hc
  cases hf : l.find? (fun p => p.1 == c) with
  | none => rw [hf] at hc; exact absurd hc (by simp)
  | some pr =>
    rw [hf] at hc
    have hmem := List.mem_of_find?_eq_some hf
    have hkey := List.find?_some hf
    simp only [beq_iff_eq] at hkey
    have hlt := h pr hmem
    have hq : pr.2 = q := Option.some.inj hc
    omega

/-- The linear commit chain 1 ← 2 ← 3 ← 4 ← 5 of the duplicate-node input. -/
def chainRepo : CRepo :=
  ⟨listParent [(2, 1), (3, 2), (4, 3), (5, 4)],
   listParent_lt _ (by decide)⟩

/-- Branch index with tips 1, 3, 4, 5 named `a`, `b`, `c`, `d`: all tips
share the common ancestor 1 (indeed they lie on one line). -/
def chainIndex : Branches :=
  [(1, [("a")]), (3, [("b")]), (4, [("c")]), (5, [("d")])]


/-- First commit id of a stack. -/
def stackFirst (s : List Node) : Option Nat := (s.map Node.id).head?

/-- Every node of the run has no child stacks (a freshly populated run). -/
def linearStack (s : List Node) : Prop := ∀ n ∈ s, n.stks = []

/-- The list is an exact parent chain climbing away from `base`, oldest
first: the first element's parent is `base`, and each element is the parent
of the next. -/
def chainIds (r : CRepo) : Nat → List Nat → Prop
  | _, [] => True
  | base, x :: rest => r.parent x = some base ∧ chainIds r x rest

/-- Every stored stack anywhere in the tree is non-empty — the shape the
merge machinery's asserts rely on. -/
inductive NE : Node → Prop where
  | mk (i : Nat) (bs : List String) (st : List (List Node)) :
      (∀ s ∈ st, s ≠ []) → (∀ s ∈ st, ∀ n ∈ s, NE n) → NE (Node.mk i bs st)

/-- The builder's running invariant: nonempty stacks everywhere, and pairwise
distinct first commits among the root's child stacks. -/
def GoodTree (t : Node) : Prop :=
  NE t ∧ (t.stks.map stackFirst).Nodup

/-- Well-formed branch index: distinct keys (it is a map) and a non-empty
name list at every key (the sort key indexes into it). -/
def wfIndex (bi : Branches) : Prop :=
  (biOids bi).Nodup ∧ ∀ p ∈ bi, p.2 ≠ []

/-! ## Theorems -/

theorem charListLt_irrefl (l : List Char) : charListLt l l = false := by
  induction l with
  | nil => rfl
  | cons a xs ih => simp [charListLt, ih]
theorem charListLt_trans {a b c : List Char} (h1 : charListLt a b = true)
    (h2 : charListLt b c = true) : charListLt a c = true := by
  induction a generalizing b c with
  | nil =>
    cases b with
    | nil => simp [charListLt] at h1
    | cons y ys =>
      cases c with
      | nil => simp [charListLt] at h2
      | cons z zs => simp [charListLt]
  | cons x xs ih =>
    cases b with
    | nil => simp [charListLt] at h1
    | cons y ys =>
      cases c with
      | nil => simp [charListLt] at h2
      | cons z zs =>
        simp only [charListLt] at h1 h2 ⊢
        rcases lt_trichotomy x y with hxy | rfl | hxy
        · rcases lt_trichotomy y z with hyz | rfl | hyz
          · rw [if_pos (lt_trans hxy hyz)]
          · rw [if_pos hxy]
          · rw [if_neg (lt_asymm hyz), if_pos hyz] at h2
            exact (Bool.false_ne_true h2).elim
        · rw [if_neg (lt_irrefl x), if_neg (lt_irrefl x)] at h1
          rcases lt_trichotomy x z with hxz | rfl | hxz
          · rw [if_pos hxz]
          · rw [if_neg (lt_irrefl x), if_neg (lt_irrefl x)] at h2 ⊢
            exact ih h1 h2
          · rw [if_neg (lt_asymm hxz), if_pos hxz] at h2
            exact (Bool.false_ne_true h2).elim
        · rw [if_neg (lt_asymm hxy), if_pos hxy] at h1
          exact (Bool.false_ne_true h1).elim
theorem charListLt_total (a b : List Char) :
    charListLt a b = true ∨ charListLt b a = true ∨ a = b := by
  induction a generalizing b with
  | nil =>
    cases b with
    | nil => right; right; rfl
    | cons y ys => left; rfl
  | cons x xs ih =>
    cases b with
    | nil => right; left; rfl
    | cons y ys =>
      rcases lt_trichotomy x y with h | h | h
      · left; simp [charListLt, h]
      · subst h
        rcases ih ys with h2 | h2 | h2
        · left; simp [charListLt, h2]
        · right; left; simp [charListLt, h2]
        · right; right; rw [h2]
      · right; left; simp [charListLt, h]
theorem charListLt_asymm {a b : List Char} (h : charListLt a b = true) :
    charListLt b a = false := by
  by_contra hc
  have hba : charListLt b a = true := by
    cases hab : charListLt b a
    · exact absurd hab hc
    · rfl
  have := charListLt_trans h hba
  rw [charListLt_irrefl] at this
  exact Bool.false_ne_true this
theorem charListLt_ne {a b : List Char} (h : charListLt a b = true) : a ≠ b := by
  intro he
  subst he
  rw [charListLt_irrefl] at h
  exact Bool.false_ne_true h
theorem strLtB_ne {a b : String} (h : strLtB a b = true) : a ≠ b := by
  intro he
  subst he
  unfold strLtB at h
  rw [charListLt_irrefl] at h
  exact Bool.false_ne_true h
theorem strLtB_asymm {a b : String} (h : strLtB a b = true) : strLtB b a = false :=
  charListLt_asymm h
theorem strLtB_trans {a b c : String} (h1 : strLtB a b = true) (h2 : strLtB b c = true) :
    strLtB a c = true := charListLt_trans h1 h2
theorem strLtB_total (a b : String) : strLtB a b = true ∨ strLtB b a = true ∨ a = b := by
  rcases charListLt_total a.data b.data with h | h | h
  · exact Or.inl h
  · exact Or.inr (Or.inl h)
  · exact Or.inr (Or.inr (String.ext h))
theorem hexVal_hexChar : ∀ d < 16, hexVal (hexChar d) = some d := by decide
theorem parseHexBytes_byte (b : Nat) (hb : b < 256) (rest : List Char) :
    parseHexBytes (byteToHex b ++ rest) =
      (parseHexBytes rest).map (fun bs => b :: bs) := by
  have hdiv : b / 16 < 16 := Nat.div_lt_of_lt_mul (by omega)
  have hmod : b % 16 < 16 := Nat.mod_lt _ (by omega)
  have h1 := hexVal_hexChar _ hdiv
  have h2 := hexVal_hexChar _ hmod
  have hrec : 16 * (b / 16) + b % 16 = b := by
    have := Nat.div_add_mod b 16
    omega
  cases hp : parseHexBytes rest with
  | none => simp [byteToHex, parseHexBytes, h1, h2, hrec, hp]
  | some bs => simp [byteToHex, parseHexBytes, h1, h2, hrec, hp]
theorem parseHexBytes_map (id : List Nat) (h : ∀ b ∈ id, b < 256) :
    parseHexBytes (id.map byteToHex).flatten = some id := by
  induction id with
  | nil => rfl
  | cons b bs ih =>
    have hb : b < 256 := h b (by simp)
    have hrest : ∀ x ∈ bs, x < 256 := fun x hx => h x (by simp [hx])
    simp only [List.map_cons, List.flatten_cons]
    rw [parseHexBytes_byte b hb, ih hrest]
    rfl
theorem oidToString_length (id : Oid) (h : id.length = 20) :
    (oidToString id).data.length = 40 := by
  have : ∀ l : List Nat, ((l.map byteToHex).flatten).length = 2 * l.length := by
    intro l
    induction l with
    | nil => rfl
    | cons x xs ih => simp [byteToHex, ih]; omega
  simp [oidToString, this, h]
/-- Full hex round trip on well-formed commit ids. -/
theorem oidFromStr_oidToString (id : Oid) (h : wfOid id) :
    oidFromStr (oidToString id) = some id := by
  unfold oidFromStr
  rw [if_pos (oidToString_length id h.1)]
  exact parseHexBytes_map id h.2
theorem mapInsert_append (m : List (String × Json)) (k : String) (v : Json)
    (h : ∀ p ∈ m, strLtB p.1 k = true) : mapInsert m k v = m ++ [(k, v)] := by
  induction m with
  | nil => rfl
  | cons p rest ih =>
    obtain ⟨k1, v1⟩ := p
    have hk1 : strLtB k1 k = true := h (k1, v1) (by simp)
    have hne : k ≠ k1 := fun he => strLtB_ne hk1 he.symm
    have hlt : strLtB k k1 = false := strLtB_asymm hk1
    simp only [mapInsert, hlt, Bool.false_eq_true, if_false, hne, if_false,
      List.cons_append]
    rw [ih (fun q hq => h q (by simp [hq]))]
theorem mapOfFields_go (fs : List (String × Json)) :
    ∀ acc : List (String × Json),
      (∀ p ∈ fs, ∀ q ∈ acc, strLtB q.1 p.1 = true) → strictKeys fs →
      fs.foldl (fun m kv => mapInsert m kv.1 kv.2) acc = acc ++ fs := by
  induction fs with
  | nil => intro acc _ _; simp
  | cons p rest ih =>
    intro acc hsep hsorted
    obtain ⟨k, v⟩ := p
    have hstep : mapInsert acc k v = acc ++ [(k, v)] :=
      mapInsert_append acc k v (fun q hq => hsep (k, v) (by simp) q hq)
    simp only [List.foldl_cons, hstep]
    rw [ih (acc ++ [(k, v)])]
    · simp
    · intro q hq r hr
      rcases List.mem_append.mp hr with hr | hr
      · exact hsep q (by simp [hq]) r hr
      · simp at hr
        subst hr
        exact (List.pairwise_cons.mp hsorted).1 q hq
    · exact (List.pairwise_cons.mp hsorted).2
/-- Round trip of an ordered metadata map through its serialized field list. -/
theorem mapOfFields_sorted (fs : List (String × Json)) (h : strictKeys fs) :
    mapOfFields fs = fs := by
  have := mapOfFields_go fs [] (by intro p _ q hq; simp at hq) h
  simpa [mapOfFields] using this
theorem getField_cons (k1 : String) (v : Json) (fs : List (String × Json)) (k : String) :
    getField ((k1, v) :: fs) k = if k1 = k then some v else getField fs k := by
  by_cases h : k1 = k <;> simp [getField, List.find?, h]
theorem branch_roundtrip (b : Branch) (hid : wfOid b.id) (hm : strictKeys b.metadata) :
    Branch.fromJson b.toJson = some b := by
  obtain ⟨name, id, metadata⟩ := b
  cases hme : metadata.isEmpty with
  | true =>
    have hmeta : metadata = [] := by
      cases metadata with
      | nil => rfl
      | cons p rest => simp [List.isEmpty] at hme
    subst hmeta
    simp [Branch.toJson, Branch.fromJson, getField_cons, deserialize_oid,
      serialize_oid, oidFromStr_oidToString id hid, getField]
  | false =>
    have hname : getField [(("name"), Json.str name), (("id"), serialize_oid id),
        (("metadata"), Json.obj metadata)] ("name") = some (Json.str name) := by
      rw [getField_cons, if_pos rfl]
    have hid2 : getField [(("name"), Json.str name), (("id"), serialize_oid id),
        (("metadata"), Json.obj metadata)] ("id") = some (serialize_oid id) := by
      rw [getField_cons, if_neg (by decide), getField_cons, if_pos rfl]
    have hmeta : getField [(("name"), Json.str name), (("id"), serialize_oid id),
        (("metadata"), Json.obj metadata)] ("metadata") = some (Json.obj metadata) := by
      rw [getField_cons, if_neg (by decide), getField_cons, if_neg (by decide),
        getField_cons, if_pos rfl]
    simp only [Branch.toJson, hme, Bool.false_eq_true, if_false, List.cons_append,
      List.nil_append, Branch.fromJson, hname, hid2, hmeta]
    simp [deserialize_oid, serialize_oid, oidFromStr_oidToString id hid,
      mapOfFields_sorted metadata hm]
theorem branchSeq_roundtrip (bs : List Branch)
    (h : ∀ b ∈ bs, Branch.fromJson b.toJson = some b) :
    branchSeqFromJson (bs.map Branch.toJson) = some bs := by
  induction bs with
  | nil => rfl
  | cons b rest ih =>
    have hb := h b (by simp)
    have hr := ih (fun x hx => h x (by simp [hx]))
    simp [branchSeqFromJson, hb, hr]


theorem find?_setBranch_self (l : List (String × Oid)) (n : String) (i : Oid) :
    (setBranch l n i).find? (fun p => decide (p.1 = n)) = some (n, i) := by
  induction l with
  | nil => simp [setBranch, List.find?]
  | cons p rest ih =>
    obtain ⟨n1, i1⟩ := p
    by_cases h : n1 = n
    · subst h
      simp [setBranch, List.find?]
    · simp only [setBranch, if_neg h]
      rw [List.find?_cons_of_neg _ (by simp [h])]
      exact ih

theorem find?_setBranch_other (l : List (String × Oid)) (n m : String) (i : Oid)
    (h : m ≠ n) :
    (setBranch l n i).find? (fun p => decide (p.1 = m)) =
      l.find? (fun p => decide (p.1 = m)) := by
  have hnm : ¬(n = m) := fun he => h he.symm
  induction l with
  | nil => simp [setBranch, List.find?, hnm]
  | cons p rest ih =>
    obtain ⟨n1, i1⟩ := p
    by_cases h1 : n1 = n
    · subst h1
      have hset : setBranch ((n1, i1) :: rest) n1 i = (n1, i) :: rest := by
        simp [setBranch]
      rw [hset, List.find?_cons_of_neg _ (by simp [hnm]), List.find?_cons_of_neg _ (by simp [hnm])]
    · simp only [setBranch, if_neg h1]
      by_cases h2 : n1 = m
      · subst h2
        rw [List.find?_cons_of_pos _ (by simp), List.find?_cons_of_pos _ (by simp)]
      · rw [List.find?_cons_of_neg _ (by simp [h2]), List.find?_cons_of_neg _ (by simp [h2])]
        exact ih

theorem branchSet_ok (r : RState) (n : String) (i : Oid) (r1 : RState)
    (h : branchSet r n i = Except.ok r1) :
    i ∈ r.commits ∧ r1 = { r with branches := setBranch r.branches n i } := by
  unfold branchSet at h
  by_cases hc : i ∈ r.commits
  · rw [if_pos hc] at h
    cases h
    exact ⟨hc, rfl⟩
  · rw [if_neg hc] at h
    exact absurd h (by simp)

theorem detach_ok (r : RState) (r1 : RState) (h : detach r = Except.ok r1) :
    ∃ i, r1 = { r with head := Head.detached i } := by
  unfold detach at h
  split at h
  · exact ⟨_, by cases h; rfl⟩
  · split at h
    · exact ⟨_, by cases h; rfl⟩
    · exact absurd h (by simp)

theorem switch_ok (r : RState) (n : String) (r1 : RState)
    (h : switch r n = Except.ok r1) : r1 = { r with head := Head.attached n } := by
  unfold switch at h
  split at h
  · cases h; rfl
  · exact absurd h (by simp)

theorem runChange_ok_head (hN : Option String) (ch : Oid × Oid × String) (st st1 : RState)
    (ops : List RefOp) (hh : hN = some ch.2.2)
    (hok : runChange hN ch st = Except.ok (st1, ops)) :
    ops = [RefOp.detachOp, RefOp.branchOp ch.2.2 ch.2.1, RefOp.switchOp ch.2.2] ∧
    st1 = { st with branches := setBranch st.branches ch.2.2 ch.2.1,
                    head := Head.attached ch.2.2 } := by
  unfold runChange at hok
  rw [if_pos hh] at hok
  split at hok
  · exact absurd hok (by simp)
  · next stD hd =>
    obtain ⟨i, hiD⟩ := detach_ok st stD hd
    split at hok
    · exact absurd hok (by simp)
    · next st2 hb =>
      obtain ⟨hc, h2⟩ := branchSet_ok stD ch.2.2 ch.2.1 st2 hb
      split at hok
      · exact absurd hok (by simp)
      · next st3 hs =>
        have h3 := switch_ok st2 ch.2.2 st3 hs
        cases hok
        subst h3 h2 hiD
        exact ⟨rfl, rfl⟩

theorem runChange_ok_nonhead (hN : Option String) (ch : Oid × Oid × String) (st st1 : RState)
    (ops : List RefOp) (hh : hN ≠ some ch.2.2)
    (hok : runChange hN ch st = Except.ok (st1, ops)) :
    ops = [RefOp.branchOp ch.2.2 ch.2.1] ∧
    st1 = { st with branches := setBranch st.branches ch.2.2 ch.2.1 } := by
  unfold runChange at hok
  rw [if_neg hh] at hok
  split at hok
  · exact absurd hok (by simp)
  · next st2 hb =>
    obtain ⟨hc, h2⟩ := branchSet_ok st ch.2.2 ch.2.1 st2 hb
    cases hok
    exact ⟨rfl, h2⟩

theorem runChange_ok_state (hN : Option String) (ch : Oid × Oid × String) (st st1 : RState)
    (ops : List RefOp) (hok : runChange hN ch st = Except.ok (st1, ops)) :
    st1.branches = setBranch st.branches ch.2.2 ch.2.1 ∧ st1.commits = st.commits := by
  by_cases hh : hN = some ch.2.2
  · obtain ⟨_, h2⟩ := runChange_ok_head hN ch st st1 ops hh hok
    rw [h2]
    exact ⟨rfl, rfl⟩
  · obtain ⟨_, h2⟩ := runChange_ok_nonhead hN ch st st1 ops hh hok
    rw [h2]
    exact ⟨rfl, rfl⟩

theorem runChange_sets (hN : Option String) (ch : Oid × Oid × String) (st st1 : RState)
    (ops : List RefOp) (hok : runChange hN ch st = Except.ok (st1, ops)) :
    findLocalBranch st1 ch.2.2 = some ch.2.1 ∧
    ∀ m, m ≠ ch.2.2 → findLocalBranch st1 m = findLocalBranch st m := by
  obtain ⟨hb, _⟩ := runChange_ok_state hN ch st st1 ops hok
  constructor
  · unfold findLocalBranch
    rw [hb, find?_setBranch_self]
    rfl
  · intro m hm
    unfold findLocalBranch
    rw [hb, find?_setBranch_other _ _ _ _ hm]

theorem applyChanges_cons_ok {hN : Option String} {ch : Oid × Oid × String} {st st1 : RState}
    {ops : List RefOp} (rest : List (Oid × Oid × String)) (tr : List RefOp)
    (h : runChange hN ch st = Except.ok (st1, ops)) :
    applyChanges hN (ch :: rest) st tr = applyChanges hN rest st1 (tr ++ ops) := by
  simp [applyChanges, h]

theorem applyChanges_cons_err {hN : Option String} {ch : Oid × Oid × String} {st : RState}
    {e : ApplyErr} (rest : List (Oid × Oid × String)) (tr : List RefOp)
    (h : runChange hN ch st = Except.error e) :
    applyChanges hN (ch :: rest) st tr = (some e, st, tr) := by
  simp [applyChanges, h]

theorem applyChanges_tr (hN : Option String) (chs : List (Oid × Oid × String)) :
    ∀ st tr, applyChanges hN chs st tr =
      ((applyChanges hN chs st []).1, (applyChanges hN chs st []).2.1,
        tr ++ (applyChanges hN chs st []).2.2) := by
  induction chs with
  | nil => intro st tr; simp [applyChanges]
  | cons ch rest ih =>
    intro st tr
    cases hrc : runChange hN ch st with
    | error e =>
      rw [applyChanges_cons_err rest tr hrc, applyChanges_cons_err rest [] hrc]
      simp
    | ok p =>
      obtain ⟨st1, ops⟩ := p
      rw [applyChanges_cons_ok rest tr hrc, applyChanges_cons_ok rest [] hrc,
        ih st1 (tr ++ ops), ih st1 ([] ++ ops)]
      simp

theorem applyChanges_lookup_preserved (hN : Option String) (chs : List (Oid × Oid × String))
    (m : String) (hfree : ∀ ch ∈ chs, ch.2.2 ≠ m) :
    ∀ st tr, findLocalBranch (applyChanges hN chs st tr).2.1 m = findLocalBranch st m := by
  induction chs with
  | nil => intro st tr; rfl
  | cons ch rest ih =>
    intro st tr
    cases hrc : runChange hN ch st with
    | error e => rw [applyChanges_cons_err rest tr hrc]
    | ok p =>
      obtain ⟨st1, ops⟩ := p
      rw [applyChanges_cons_ok rest tr hrc,
        ih (fun c hc => hfree c (by simp [hc])) st1 (tr ++ ops)]
      exact (runChange_sets hN ch st st1 ops hrc).2 m
        (fun he => (hfree ch (by simp)) he.symm)

theorem applyChanges_final_lookup (hN : Option String) (chs : List (Oid × Oid × String))
    (hnd : (chs.map (fun c => c.2.2)).Nodup) :
    ∀ st tr, (applyChanges hN chs st tr).1 = none →
      ∀ ch ∈ chs, findLocalBranch (applyChanges hN chs st tr).2.1 ch.2.2 = some ch.2.1 := by
  induction chs with
  | nil => intro st tr _ ch hch; exact absurd hch (by simp)
  | cons c rest ih =>
    intro st tr hok ch hch
    cases hrc : runChange hN c st with
    | error e =>
      rw [applyChanges_cons_err rest tr hrc] at hok
      exact absurd hok (by simp)
    | ok p =>
      obtain ⟨st1, ops⟩ := p
      rw [applyChanges_cons_ok rest tr hrc] at hok ⊢
      rcases List.mem_cons.mp hch with rfl | hch2
      · have hfree : ∀ c2 ∈ rest, c2.2.2 ≠ ch.2.2 := by
          intro c2 hc2 he
          have hmem : ch.2.2 ∈ List.map (fun c => c.2.2) rest := by
            rw [← he]
            exact List.mem_map.mpr ⟨c2, hc2, rfl⟩
          exact (List.nodup_cons.mp hnd).1 hmem
        rw [applyChanges_lookup_preserved hN rest ch.2.2 hfree st1 (tr ++ ops)]
        exact (runChange_sets hN ch st st1 ops hrc).1
      · exact ih (List.nodup_cons.mp hnd).2 st1 (tr ++ ops) hok ch hch2

theorem applyChanges_head_free (hN : Option String) (chs : List (Oid × Oid × String))
    (hfree : ∀ ch ∈ chs, hN ≠ some ch.2.2) :
    ∀ st tr, (applyChanges hN chs st tr).2.1.head = st.head ∧
      ∀ op ∈ (applyChanges hN chs st tr).2.2,
        op ∈ tr ∨ ∃ nm i, op = RefOp.branchOp nm i := by
  induction chs with
  | nil =>
    intro st tr
    exact ⟨rfl, fun op hop => Or.inl hop⟩
  | cons c rest ih =>
    intro st tr
    cases hrc : runChange hN c st with
    | error e =>
      rw [applyChanges_cons_err rest tr hrc]
      exact ⟨rfl, fun op hop => Or.inl hop⟩
    | ok p =>
      obtain ⟨st1, ops⟩ := p
      rw [applyChanges_cons_ok rest tr hrc]
      obtain ⟨hops, hst1⟩ := runChange_ok_nonhead hN c st st1 ops (hfree c (by simp)) hrc
      have hhead : st1.head = st.head := by rw [hst1]
      obtain ⟨ih1, ih2⟩ := ih (fun c2 hc2 => hfree c2 (by simp [hc2])) st1 (tr ++ ops)
      refine ⟨by rw [ih1, hhead], fun op hop => ?_⟩
      rcases ih2 op hop with hin | hbr
      · rcases List.mem_append.mp hin with hin2 | hin2
        · exact Or.inl hin2
        · rw [hops] at hin2
          simp at hin2
          exact Or.inr ⟨c.2.2, c.2.1, hin2⟩
      · exact Or.inr hbr

theorem applyChanges_head_attached (hN : Option String) (chs : List (Oid × Oid × String))
    (name : String) (hh : hN = some name) :
    ∀ st tr, (applyChanges hN chs st tr).1 = none →
      (∃ ch ∈ chs, ch.2.2 = name) →
      (applyChanges hN chs st tr).2.1.head = Head.attached name := by
  induction chs with
  | nil =>
    intro st tr _ hex
    obtain ⟨ch, hch, _⟩ := hex
    exact absurd hch (by simp)
  | cons c rest ih =>
    intro st tr hok hex
    cases hrc : runChange hN c st with
    | error e =>
      rw [applyChanges_cons_err rest tr hrc] at hok
      exact absurd hok (by simp)
    | ok p =>
      obtain ⟨st1, ops⟩ := p
      rw [applyChanges_cons_ok rest tr hrc] at hok ⊢
      by_cases hrest : ∃ ch ∈ rest, ch.2.2 = name
      · exact ih st1 (tr ++ ops) hok hrest
      · obtain ⟨ch, hch, hchname⟩ := hex
        rcases List.mem_cons.mp hch with rfl | hch2
        · obtain ⟨_, hst1⟩ := runChange_ok_head hN ch st st1 ops (by rw [hh, hchname]) hrc
          have hfree : ∀ c2 ∈ rest, hN ≠ some c2.2.2 := by
            intro c2 hc2 he
            refine hrest ⟨c2, hc2, ?_⟩
            rw [hh] at he
            exact (Option.some.injEq _ _ ▸ he).symm
          have := (applyChanges_head_free hN rest hfree st1 (tr ++ ops)).1
          rw [this, hst1, hchname]
        · exact absurd ⟨ch, hch2, hchname⟩ hrest

theorem applyChanges_block (hN : Option String) (chs : List (Oid × Oid × String))
    (name : String) (newId o : Oid) (hh : hN = some name)
    (hnd : (chs.map (fun c => c.2.2)).Nodup) (hin : (o, newId, name) ∈ chs) :
    ∀ st tr, (applyChanges hN chs st tr).1 = none →
      ∃ pre post, (applyChanges hN chs st tr).2.2 =
        pre ++ [RefOp.detachOp, RefOp.branchOp name newId, RefOp.switchOp name] ++ post := by
  induction chs with
  | nil => intro st tr _; exact absurd hin (by simp)
  | cons c rest ih =>
    intro st tr hok
    cases hrc : runChange hN c st with
    | error e =>
      rw [applyChanges_cons_err rest tr hrc] at hok
      exact absurd hok (by simp)
    | ok p =>
      obtain ⟨st1, ops⟩ := p
      rw [applyChanges_cons_ok rest tr hrc] at hok ⊢
      rcases List.mem_cons.mp hin with heq | hin2
      · have hc2 : c.2.2 = name := by rw [← heq]
        have hc1 : c.2.1 = newId := by rw [← heq]
        obtain ⟨hops, _⟩ := runChange_ok_head hN c st st1 ops (by rw [hh, hc2]) hrc
        rw [applyChanges_tr hN rest st1 (tr ++ ops)]
        refine ⟨tr, (applyChanges hN rest st1 []).2.2, ?_⟩
        rw [hops, hc2, hc1]
      · have hcname : c.2.2 ≠ name := by
          intro he
          have hmem : c.2.2 ∈ List.map (fun c => c.2.2) rest := by
            rw [he]
            exact List.mem_map.mpr ⟨(o, newId, name), hin2, rfl⟩
          exact (List.nodup_cons.mp hnd).1 hmem
        exact ih (List.nodup_cons.mp hnd).2 hin2 st1 (tr ++ ops) hok

theorem applyChanges_err_take (hN : Option String) (chs : List (Oid × Oid × String)) :
    ∀ st tr e, (applyChanges hN chs st tr).1 = some e →
      ∃ k < chs.length, applyChanges hN (chs.take k) st tr =
        (none, (applyChanges hN chs st tr).2.1, (applyChanges hN chs st tr).2.2) := by
  induction chs with
  | nil => intro st tr e h; exact absurd h (by simp [applyChanges])
  | cons c rest ih =>
    intro st tr e h
    cases hrc : runChange hN c st with
    | error e2 =>
      rw [applyChanges_cons_err rest tr hrc] at h ⊢
      refine ⟨0, by simp, ?_⟩
      simp [applyChanges]
    | ok p =>
      obtain ⟨st1, ops⟩ := p
      rw [applyChanges_cons_ok rest tr hrc] at h ⊢
      obtain ⟨k, hk, heq⟩ := ih st1 (tr ++ ops) e h
      refine ⟨k + 1, by simpa using hk, ?_⟩
      rw [List.take_succ_cons, applyChanges_cons_ok (rest.take k) tr hrc]
      exact heq

theorem apply_spec (s : Snapshot) (r : RState) :
    (Snapshot.apply s r).err =
      (applyChanges ((head_branch r).map (fun p => p.1)) (planned_changes r s.branches) r []).1 ∧
    (Snapshot.apply s r).state =
      (applyChanges ((head_branch r).map (fun p => p.1)) (planned_changes r s.branches) r []).2.1 ∧
    (Snapshot.apply s r).trace =
      (applyChanges ((head_branch r).map (fun p => p.1)) (planned_changes r s.branches) r []).2.2 ∧
    ((Snapshot.apply s r).txnCommitted = true ↔
      (applyChanges ((head_branch r).map (fun p => p.1)) (planned_changes r s.branches) r []).1 = none) := by
  unfold Snapshot.apply
  cases h : applyChanges ((head_branch r).map (fun p => p.1)) (planned_changes r s.branches) r [] with
  | mk e? str =>
    obtain ⟨st, tr⟩ := str
    cases e? <;> simp [h]

theorem planned_changes_cons_skip {r : RState} {b : Branch} {rest : List Branch}
    (h : findLocalBranch r b.name = some b.id) :
    planned_changes r (b :: rest) = planned_changes r rest := by
  simp [planned_changes, h]

theorem planned_changes_cons_move {r : RState} {b : Branch} {rest : List Branch}
    (eid : Oid) (h : findLocalBranch r b.name = some eid) (hne : eid ≠ b.id) :
    planned_changes r (b :: rest) = (eid, b.id, b.name) :: planned_changes r rest := by
  simp [planned_changes, h, hne]

theorem planned_changes_cons_create {r : RState} {b : Branch} {rest : List Branch}
    (h : findLocalBranch r b.name = none) :
    planned_changes r (b :: rest) = (Oid.zero, b.id, b.name) :: planned_changes r rest := by
  simp [planned_changes, h]

theorem planned_changes_not_matching (r : RState) (bs : List Branch) :
    ∀ ch ∈ planned_changes r bs, findLocalBranch r ch.2.2 ≠ some ch.2.1 := by
  induction bs with
  | nil => intro ch hch; exact absurd hch (by simp [planned_changes])
  | cons b rest ih =>
    intro ch hch
    cases hf : findLocalBranch r b.name with
    | some eid =>
      by_cases he : eid = b.id
      · rw [planned_changes_cons_skip (he ▸ hf)] at hch
        exact ih ch hch
      · rw [planned_changes_cons_move eid hf he] at hch
        rcases List.mem_cons.mp hch with rfl | h2
        · intro hc
          have hc2 : findLocalBranch r b.name = some b.id := hc
          rw [hf] at hc2
          exact he (Option.some.inj hc2)
        · exact ih ch h2
    | none =>
      rw [planned_changes_cons_create hf] at hch
      rcases List.mem_cons.mp hch with rfl | h2
      · intro hc
        have hc2 : findLocalBranch r b.name = some b.id := hc
        rw [hf] at hc2
        exact Option.noConfusion hc2
      · exact ih ch h2

theorem planned_changes_all_match (r : RState) (bs : List Branch)
    (h : ∀ b ∈ bs, findLocalBranch r b.name = some b.id) :
    planned_changes r bs = [] := by
  induction bs with
  | nil => rfl
  | cons b rest ih =>
    rw [planned_changes_cons_skip (h b (by simp))]
    exact ih (fun x hx => h x (by simp [hx]))

theorem planned_changes_mem_create (r : RState) (bs : List Branch) (b : Branch)
    (hin : b ∈ bs) (hmiss : findLocalBranch r b.name = none) :
    (Oid.zero, b.id, b.name) ∈ planned_changes r bs := by
  induction bs with
  | nil => exact absurd hin (by simp)
  | cons c rest ih =>
    rcases List.mem_cons.mp hin with rfl | h2
    · rw [planned_changes_cons_create hmiss]
      exact List.mem_cons_self _ _
    · cases hf : findLocalBranch r c.name with
      | some eid =>
        by_cases he : eid = c.id
        · rw [planned_changes_cons_skip (he ▸ hf)]
          exact ih h2
        · rw [planned_changes_cons_move eid hf he]
          exact List.mem_cons_of_mem _ (ih h2)
      | none =>
        rw [planned_changes_cons_create hf]
        exact List.mem_cons_of_mem _ (ih h2)

/-- C5: in the planning step of `Snapshot::apply`, every snapshot branch record
whose recorded commit id equals the branch's current id is skipped — no planned
change targets a branch already at its recorded id — and consequently restoring
a snapshot that matches the current repository state produces zero ref changes
and leaves the repository untouched with the transaction committed. -/
theorem c5_skip_matching (s : Snapshot) (r : RState) :
    (∀ ch ∈ planned_changes r s.branches, findLocalBranch r ch.2.2 ≠ some ch.2.1) ∧
    ((∀ b ∈ s.branches, findLocalBranch r b.name = some b.id) →
      planned_changes r s.branches = [] ∧
      Snapshot.apply s r = ⟨none, r, true, []⟩) := by
  refine ⟨planned_changes_not_matching r s.branches, fun hmatch => ?_⟩
  have hempty := planned_changes_all_match r s.branches hmatch
  refine ⟨hempty, ?_⟩
  unfold Snapshot.apply
  rw [hempty]
  rfl

theorem c5_witness :
    planned_changes matchRepo matchSnap.branches = [] ∧
    Snapshot.apply matchSnap matchRepo = ⟨none, matchRepo, true, []⟩ :=
  (c5_skip_matching matchSnap matchRepo).2 (by decide)

/-- C6: a snapshot branch record naming a branch that does not exist locally is
planned with the synthetic zero id as old id, and a successful apply creates
the branch at the recorded commit. -/
theorem c6_missing_branch_created (s : Snapshot) (r : RState) (b : Branch)
    (hin : b ∈ s.branches) (hmiss : findLocalBranch r b.name = none) :
    (Oid.zero, b.id, b.name) ∈ planned_changes r s.branches ∧
    (((planned_changes r s.branches).map (fun c => c.2.2)).Nodup →
      (Snapshot.apply s r).err = none →
      findLocalBranch (Snapshot.apply s r).state b.name = some b.id) := by
  refine ⟨planned_changes_mem_create r s.branches b hin hmiss, fun hnd herr => ?_⟩
  obtain ⟨he, hs, _, _⟩ := apply_spec s r
  rw [hs]
  rw [he] at herr
  exact applyChanges_final_lookup _ _ hnd r [] herr _
    (planned_changes_mem_create r s.branches b hin hmiss)

theorem c6_witness :
    (Oid.zero, List.replicate 20 2, ("c" : String)) ∈
      planned_changes missRepo missSnap.branches ∧
    findLocalBranch (Snapshot.apply missSnap missRepo).state ("c") =
      some (List.replicate 20 2) := by
  have h := c6_missing_branch_created missSnap missRepo ⟨("c"), List.replicate 20 2, []⟩
    (by simp [missSnap]) (by decide)
  exact ⟨h.1, h.2 (by decide) (by decide)⟩

/-- C3: during `Snapshot::apply`, the planned change whose branch name matches
the current HEAD branch is executed as detach, retarget, switch — in that
order, consecutively in the operation trace — leaving HEAD attached to that
branch at the new commit; and if the HEAD branch is not in the change set,
HEAD is left untouched (no detach and no switch is ever issued). -/
theorem c3_head_protocol (s : Snapshot) (r : RState) (hd : String) (hid : Oid)
    (hhead : head_branch r = some (hd, hid)) :
    (∀ o n, (o, n, hd) ∈ planned_changes r s.branches →
      ((planned_changes r s.branches).map (fun c => c.2.2)).Nodup →
      (Snapshot.apply s r).err = none →
      (∃ pre post, (Snapshot.apply s r).trace =
        pre ++ [RefOp.detachOp, RefOp.branchOp hd n, RefOp.switchOp hd] ++ post) ∧
      (Snapshot.apply s r).state.head = Head.attached hd ∧
      findLocalBranch (Snapshot.apply s r).state hd = some n) ∧
    ((∀ ch ∈ planned_changes r s.branches, ch.2.2 ≠ hd) →
      (Snapshot.apply s r).state.head = r.head ∧
      RefOp.detachOp ∉ (Snapshot.apply s r).trace ∧
      ∀ nm, RefOp.switchOp nm ∉ (Snapshot.apply s r).trace) := by
  obtain ⟨he, hs, ht, _⟩ := apply_spec s r
  have hN : (head_branch r).map (fun p => p.1) = some hd := by rw [hhead]; rfl
  constructor
  · intro o n hin hnd herr
    rw [he] at herr
    refine ⟨?_, ?_, ?_⟩
    · rw [ht]
      exact applyChanges_block _ _ hd n o hN hnd hin r [] herr
    · rw [hs]
      exact applyChanges_head_attached _ _ hd hN r [] herr ⟨(o, n, hd), hin, rfl⟩
    · rw [hs]
      exact applyChanges_final_lookup _ _ hnd r [] herr _ hin
  · intro hfree
    have hfree2 : ∀ ch ∈ planned_changes r s.branches,
        (head_branch r).map (fun p => p.1) ≠ some ch.2.2 := by
      intro ch hch hcontra
      rw [hN] at hcontra
      exact hfree ch hch (Option.some.inj hcontra).symm
    obtain ⟨hh, hops⟩ := applyChanges_head_free _ _ hfree2 r []
    refine ⟨by rw [hs]; exact hh, ?_, ?_⟩
    · intro hmem
      rw [ht] at hmem
      rcases hops _ hmem with h | ⟨nm, i, h⟩
      · exact absurd h (by simp)
      · exact RefOp.noConfusion h
    · intro nm hmem
      rw [ht] at hmem
      rcases hops _ hmem with h | ⟨nm2, i, h⟩
      · exact absurd h (by simp)
      · exact RefOp.noConfusion h

theorem c3_witness :
    (∃ pre post, (Snapshot.apply aSnap aRepo).trace =
      pre ++ [RefOp.detachOp, RefOp.branchOp ("a") (List.replicate 20 2),
        RefOp.switchOp ("a")] ++ post) ∧
    (Snapshot.apply aSnap aRepo).state.head = Head.attached ("a") ∧
    findLocalBranch (Snapshot.apply aSnap aRepo).state ("a") =
      some (List.replicate 20 2) :=
  (c3_head_protocol aSnap aRepo ("a") (List.replicate 20 1) (by decide)).1
    (List.replicate 20 1) (List.replicate 20 2) (by decide) (by decide) (by decide)

/-- C2 counterexample: in `cexRepo`, applying `cexSnap` fails on the second
planned change (its commit is absent), yet the first planned change has
already moved branch `a` — partial ref state persists, so apply is not
all-or-nothing. -/
theorem c2_counterexample :
    ((Snapshot.apply cexSnap cexRepo).err).isSome = true ∧
    findLocalBranch (Snapshot.apply cexSnap cexRepo).state ("a") =
      some (List.replicate 20 3) ∧
    findLocalBranch (Snapshot.apply cexSnap cexRepo).state ("b") =
      some (List.replicate 20 2) ∧
    (Snapshot.apply cexSnap cexRepo).state ≠ cexRepo := by decide

/-- C2 (amended): if any planned ref change fails, the reference-transaction
hook scope is abandoned (never committed) and the remaining changes are not
applied, but ref changes already applied before the failure persist: the final
state and trace are exactly those of successfully applying a proper prefix of
the planned changes. -/
theorem c2_partial_on_failure (s : Snapshot) (r : RState) (e : ApplyErr)
    (h : (Snapshot.apply s r).err = some e) :
    (Snapshot.apply s r).txnCommitted = false ∧
    ∃ k < (planned_changes r s.branches).length,
      applyChanges ((head_branch r).map (fun p => p.1))
          ((planned_changes r s.branches).take k) r [] =
        (none, (Snapshot.apply s r).state, (Snapshot.apply s r).trace) := by
  obtain ⟨he, hs, ht, hc⟩ := apply_spec s r
  rw [he] at h
  constructor
  · cases hcommit : (Snapshot.apply s r).txnCommitted
    · rfl
    · have := hc.mp hcommit
      rw [this] at h
      exact Option.noConfusion h
  · obtain ⟨k, hk, heq⟩ := applyChanges_err_take _ _ r [] e h
    exact ⟨k, hk, by rw [hs, ht]; exact heq⟩

theorem c2_witness :
    (Snapshot.apply cexSnap cexRepo).txnCommitted = false ∧
    ∃ k < (planned_changes cexRepo cexSnap.branches).length,
      applyChanges ((head_branch cexRepo).map (fun p => p.1))
          ((planned_changes cexRepo cexSnap.branches).take k) cexRepo [] =
        (none, (Snapshot.apply cexSnap cexRepo).state,
          (Snapshot.apply cexSnap cexRepo).trace) :=
  c2_partial_on_failure cexSnap cexRepo
    (ApplyErr.missingCommit (List.replicate 20 4)) (by decide)

/-- C8: serializing a well-formed snapshot and deserializing the result yields
an equal snapshot, and in particular every commit id round-trips through its
canonical hex text form via `serialize_oid` and `deserialize_oid`. -/
theorem c8_snapshot_roundtrip (s : Snapshot) (h : wfSnapshot s) :
    Snapshot.fromJson s.toJson = some s ∧
    ∀ b ∈ s.branches, deserialize_oid (serialize_oid b.id) = some b.id := by
  obtain ⟨branches, metadata⟩ := s
  obtain ⟨hbs, hmeta⟩ := h
  constructor
  · have hseq : branchSeqFromJson (branches.map Branch.toJson) = some branches :=
      branchSeq_roundtrip branches (fun b hb => branch_roundtrip b (hbs b hb).1 (hbs b hb).2)
    cases hme : metadata.isEmpty with
    | true =>
      have hm0 : metadata = [] := by
        cases metadata with
        | nil => rfl
        | cons p rest => simp [List.isEmpty] at hme
      subst hm0
      simp [Snapshot.toJson, Snapshot.fromJson, getField_cons, hseq, getField]
    | false =>
      have hb2 : getField [(("branches"), Json.arr (branches.map Branch.toJson)),
          (("metadata"), Json.obj metadata)] ("branches") =
          some (Json.arr (branches.map Branch.toJson)) := by
        rw [getField_cons, if_pos rfl]
      have hm2 : getField [(("branches"), Json.arr (branches.map Branch.toJson)),
          (("metadata"), Json.obj metadata)] ("metadata") = some (Json.obj metadata) := by
        rw [getField_cons, if_neg (by decide), getField_cons, if_pos rfl]
      simp only [Snapshot.toJson, hme, Bool.false_eq_true, if_false, List.cons_append,
        List.nil_append, Snapshot.fromJson, hb2, hm2, hseq]
      simp [mapOfFields_sorted metadata hmeta]
  · intro b hb
    simp [deserialize_oid, serialize_oid, oidFromStr_oidToString b.id (hbs b hb).1]

theorem c8_witness :
    Snapshot.fromJson sampleSnapshot.toJson = some sampleSnapshot ∧
    ∀ b ∈ sampleSnapshot.branches, deserialize_oid (serialize_oid b.id) = some b.id :=
  c8_snapshot_roundtrip sampleSnapshot
    ⟨by
      intro b hb
      simp only [sampleSnapshot, List.mem_singleton] at hb
      subst hb
      refine ⟨?_, by simp [strictKeys]⟩
      show sampleOid.length = 20 ∧ ∀ x ∈ sampleOid, x < 256
      decide,
     by simp [sampleSnapshot, strictKeys]⟩

theorem oidLtB_trans {a b c : List Nat} (h1 : oidLtB a b = true)
    (h2 : oidLtB b c = true) : oidLtB a c = true := by
  induction a generalizing b c with
  | nil =>
    cases b with
    | nil => simp [oidLtB] at h1
    | cons y ys =>
      cases c with
      | nil => simp [oidLtB] at h2
      | cons z zs => simp [oidLtB]
  | cons x xs ih =>
    cases b with
    | nil => simp [oidLtB] at h1
    | cons y ys =>
      cases c with
      | nil => simp [oidLtB] at h2
      | cons z zs =>
        simp only [oidLtB] at h1 h2 ⊢
        rcases lt_trichotomy x y with hxy | rfl | hxy
        · rcases lt_trichotomy y z with hyz | rfl | hyz
          · rw [if_pos (lt_trans hxy hyz)]
          · rw [if_pos hxy]
          · rw [if_neg (lt_asymm hyz), if_pos hyz] at h2
            exact (Bool.false_ne_true h2).elim
        · rw [if_neg (lt_irrefl x), if_neg (lt_irrefl x)] at h1
          rcases lt_trichotomy x z with hxz | rfl | hxz
          · rw [if_pos hxz]
          · rw [if_neg (lt_irrefl x), if_neg (lt_irrefl x)] at h2 ⊢
            exact ih h1 h2
          · rw [if_neg (lt_asymm hxz), if_pos hxz] at h2
            exact (Bool.false_ne_true h2).elim
        · rw [if_neg (lt_asymm hxy), if_pos hxy] at h1
          exact (Bool.false_ne_true h1).elim

theorem oidLtB_total (a b : List Nat) :
    oidLtB a b = true ∨ oidLtB b a = true ∨ a = b := by
  induction a generalizing b with
  | nil =>
    cases b with
    | nil => right; right; rfl
    | cons y ys => left; rfl
  | cons x xs ih =>
    cases b with
    | nil => right; left; rfl
    | cons y ys =>
      rcases lt_trichotomy x y with h | h | h
      · left; simp [oidLtB, h]
      · subst h
        rcases ih ys with h2 | h2 | h2
        · left; simp [oidLtB, h2]
        · right; left; simp [oidLtB, h2]
        · right; right; rw [h2]
      · right; left; simp [oidLtB, h]

theorem branchLe_expand (a b : Branch) : branchLe a b = true ↔
    strLtB a.name b.name = true ∨
      (a.name = b.name ∧ (oidLtB a.id b.id = true ∨ a.id = b.id)) := by
  unfold branchLe
  simp [Bool.or_eq_true, Bool.and_eq_true, decide_eq_true_eq]

theorem branchLe_total (a b : Branch) : branchLe a b = true ∨ branchLe b a = true := by
  rcases strLtB_total a.name b.name with h | h | h
  · exact Or.inl ((branchLe_expand a b).mpr (Or.inl h))
  · exact Or.inr ((branchLe_expand b a).mpr (Or.inl h))
  · rcases oidLtB_total a.id b.id with h2 | h2 | h2
    · exact Or.inl ((branchLe_expand a b).mpr (Or.inr ⟨h, Or.inl h2⟩))
    · exact Or.inr ((branchLe_expand b a).mpr (Or.inr ⟨h.symm, Or.inl h2⟩))
    · exact Or.inl ((branchLe_expand a b).mpr (Or.inr ⟨h, Or.inr h2⟩))

theorem branchLe_trans {a b c : Branch} (h1 : branchLe a b = true)
    (h2 : branchLe b c = true) : branchLe a c = true := by
  rcases (branchLe_expand a b).mp h1 with hn1 | ⟨he1, hi1⟩
  · rcases (branchLe_expand b c).mp h2 with hn2 | ⟨he2, _⟩
    · exact (branchLe_expand a c).mpr (Or.inl (strLtB_trans hn1 hn2))
    · exact (branchLe_expand a c).mpr (Or.inl (he2 ▸ hn1))
  · rcases (branchLe_expand b c).mp h2 with hn2 | ⟨he2, hi2⟩
    · exact (branchLe_expand a c).mpr (Or.inl (he1 ▸ hn2))
    · refine (branchLe_expand a c).mpr (Or.inr ⟨he1.trans he2, ?_⟩)
      rcases hi1 with hi1 | hi1
      · rcases hi2 with hi2 | hi2
        · exact Or.inl (oidLtB_trans hi1 hi2)
        · exact Or.inl (hi2 ▸ hi1)
      · rcases hi2 with hi2 | hi2
        · exact Or.inl (hi1 ▸ hi2)
        · exact Or.inr (hi1.trans hi2)

theorem insertBranch_perm (b : Branch) (l : List Branch) :
    (insertBranch b l).Perm (b :: l) := by
  induction l with
  | nil => exact List.Perm.refl _
  | cons c rest ih =>
    by_cases h : branchLe c b = true
    · simp only [insertBranch, if_pos h]
      exact (ih.cons c).trans (List.Perm.swap b c rest)
    · simp only [insertBranch, if_neg h]
      exact List.Perm.refl _

theorem insertBranch_pairwise (b : Branch) (l : List Branch)
    (hl : l.Pairwise (fun x y => branchLe x y = true)) :
    (insertBranch b l).Pairwise (fun x y => branchLe x y = true) := by
  induction l with
  | nil => simp [insertBranch]
  | cons c rest ih =>
    obtain ⟨hc, hrest⟩ := List.pairwise_cons.mp hl
    by_cases h : branchLe c b = true
    · simp only [insertBranch, if_pos h]
      refine List.pairwise_cons.mpr ⟨?_, ih hrest⟩
      intro x hx
      have hx2 : x ∈ b :: rest := (insertBranch_perm b rest).mem_iff.mp hx
      rcases List.mem_cons.mp hx2 with rfl | hx3
      · exact h
      · exact hc x hx3
    · have hb : branchLe b c = true := by
        rcases branchLe_total c b with h2 | h2
        · exact absurd h2 h
        · exact h2
      simp only [insertBranch, if_neg h]
      refine List.pairwise_cons.mpr ⟨?_, hl⟩
      intro x hx
      rcases List.mem_cons.mp hx with rfl | hx2
      · exact hb
      · exact branchLe_trans hb (hc x hx2)

theorem sortBranches_perm (l : List Branch) : (sortBranches l).Perm l := by
  induction l with
  | nil => exact List.Perm.refl _
  | cons b rest ih =>
    exact (insertBranch_perm b (sortBranches rest)).trans (ih.cons b)

theorem sortBranches_pairwise (l : List Branch) :
    (sortBranches l).Pairwise (fun x y => branchLe x y = true) := by
  induction l with
  | nil => simp [sortBranches]
  | cons b rest ih => exact insertBranch_pairwise b (sortBranches rest) ih

theorem readBranchRecords_ok (r : ReadRepo) (l : List (String × Oid))
    (h : ∀ p ∈ l, (r.summary p.2).isSome = true) :
    ∃ bs, readBranchRecords r l = some bs ∧
      bs.map (fun b => (b.name, b.id)) = l := by
  induction l with
  | nil => exact ⟨[], rfl, rfl⟩
  | cons p rest ih =>
    obtain ⟨n, i⟩ := p
    obtain ⟨bs, hbs, hmap⟩ := ih (fun q hq => h q (by simp [hq]))
    have hsome : (r.summary i).isSome = true := h (n, i) (by simp)
    cases hs : r.summary i with
    | none => rw [hs] at hsome; exact absurd hsome (by simp)
    | some s =>
      refine ⟨⟨n, i, [(("summary"), Json.str s)]⟩ :: bs, ?_, by simp [hmap]⟩
      simp [readBranchRecords, hs, hbs]

/-- C7 counterexample: a backing-store read failure during branch enumeration
is not propagated — `from_repo` returns a successful empty snapshot instead of
an error. -/
theorem c7_counterexample :
    failRepo.branchesResult = Except.error () ∧
    Snapshot.from_repo failRepo = some (Except.ok ⟨[], []⟩) := ⟨rfl, rfl⟩

/-- C7 (amended): `Snapshot::from_repo` is read-only by construction and
returns a snapshot whose branch list is sorted by `(name, id)` and is a
permutation of the records read from the decodable local branches — a branch
whose name cannot be decoded as text is skipped with a logged warning, not an
error.  Backing-store read failures are not propagated: a failed enumeration
yields an empty snapshot (`c7_counterexample`) and an unreadable tip commit is
a panic, so the returned `Result` is never an error. -/
theorem c7_from_repo_sorted (r : ReadRepo) (bs : List RawBranch)
    (hok : r.branchesResult = Except.ok bs)
    (hsum : ∀ p ∈ local_branches r, (r.summary p.2).isSome = true) :
    ∃ snap recs, Snapshot.from_repo r = some (Except.ok snap) ∧
      snap.metadata = [] ∧
      readBranchRecords r (local_branches r) = some recs ∧
      snap.branches.Perm recs ∧
      snap.branches.Pairwise (fun a b => branchLe a b = true) ∧
      recs.map (fun b => (b.name, b.id)) = local_branches r ∧
      ∀ b ∈ snap.branches, ∃ rb ∈ bs, rb.name = some b.name ∧ rb.id = b.id := by
  obtain ⟨recs, hrecs, hmap⟩ := readBranchRecords_ok r (local_branches r) hsum
  refine ⟨⟨sortBranches recs, []⟩, recs, ?_, rfl, hrecs, sortBranches_perm recs,
    sortBranches_pairwise recs, hmap, ?_⟩
  · unfold Snapshot.from_repo
    rw [hrecs]
  · intro b hb
    have hbrecs : b ∈ recs := (sortBranches_perm recs).mem_iff.mp hb
    have hpair : (b.name, b.id) ∈ local_branches r := by
      rw [← hmap]
      exact List.mem_map.mpr ⟨b, hbrecs, rfl⟩
    unfold local_branches at hpair
    rw [hok] at hpair
    obtain ⟨rb, hrb, hrb2⟩ := List.mem_filterMap.mp hpair
    cases hname : rb.name with
    | none => rw [hname] at hrb2; exact absurd hrb2 (by simp)
    | some n =>
      rw [hname] at hrb2
      have hn : n = b.name ∧ rb.id = b.id := by
        have : (n, rb.id) = (b.name, b.id) := Option.some.inj hrb2
        exact ⟨congrArg Prod.fst this, congrArg Prod.snd this⟩
      exact ⟨rb, hrb, by rw [hname, hn.1], hn.2⟩

theorem c7_witness :
    ∃ snap recs, Snapshot.from_repo okRepo = some (Except.ok snap) ∧
      snap.metadata = [] ∧
      readBranchRecords okRepo (local_branches okRepo) = some recs ∧
      snap.branches.Perm recs ∧
      snap.branches.Pairwise (fun a b => branchLe a b = true) ∧
      recs.map (fun b => (b.name, b.id)) = local_branches okRepo ∧
      ∀ b ∈ snap.branches, ∃ rb ∈ ([⟨some ("b"), List.replicate 20 1⟩,
        ⟨none, List.replicate 20 9⟩, ⟨some ("a"), List.replicate 20 2⟩] : List RawBranch),
        rb.name = some b.name ∧ rb.id = b.id :=
  c7_from_repo_sorted okRepo
    [⟨some ("b"), List.replicate 20 1⟩, ⟨none, List.replicate 20 9⟩,
      ⟨some ("a"), List.replicate 20 2⟩] rfl (by decide)

/-- C1: on the linear history 1 ← 2 ← 3 ← 4 ← 5 with branch tips a@1, b@3,
c@4, d@5 (all sharing the common ancestor 1), the tree built by
`from_branches` represents commit 4 by two distinct Stack Nodes: the
"rhs is a superset" arm of `merge_stack` pushes the remainder beneath the last
node of the matched stack without consulting that node's existing child
stacks.  Every input branch still appears in exactly one node's branch list;
the one-node-per-commit invariant is the part that fails. -/
theorem c1_duplicate_commit_node :
    (from_branches chainRepo chainIndex).map (fun t => t.ids.count 4) = Except.ok 2 ∧
    (from_branches chainRepo chainIndex).map (fun t => decide t.ids.Nodup) =
      Except.ok false ∧
    (from_branches chainRepo chainIndex).map
        (fun t => ([("a"), ("b"), ("c"), ("d")]).all
          (fun nm => t.allBranches.count nm == 1)) = Except.ok true :=
  ⟨by rfl, by rfl, by rfl⟩

theorem ancestryFuel_stable (r : CRepo) :
    ∀ c f g, c ≤ f → c ≤ g → ancestryFuel r f c = ancestryFuel r g c := by
  intro c
  induction c using Nat.strong_induction_on with
  | _ c ih =>
    intro f g hf hg
    cases f with
    | zero =>
      have hc : c = 0 := Nat.le_zero.mp hf
      subst hc
      cases g with
      | zero => rfl
      | succ g2 =>
        cases hp : r.parent 0 with
        | none => simp [ancestryFuel, hp]
        | some p => exact absurd (r.parent_lt 0 p hp) (by omega)
    | succ f2 =>
      cases g with
      | zero =>
        have hc : c = 0 := Nat.le_zero.mp hg
        subst hc
        cases hp : r.parent 0 with
        | none => simp [ancestryFuel, hp]
        | some p => exact absurd (r.parent_lt 0 p hp) (by omega)
      | succ g2 =>
        cases hp : r.parent c with
        | none => simp [ancestryFuel, hp]
        | some p =>
          have hlt := r.parent_lt c p hp
          simp only [ancestryFuel, hp]
          rw [ih p hlt f2 g2 (by omega) (by omega)]

theorem ancestry_parent_none {r : CRepo} {c : Nat} (hp : r.parent c = none) :
    r.ancestry c = [c] := by
  unfold CRepo.ancestry
  cases c with
  | zero => rfl
  | succ c2 => simp [ancestryFuel, hp]

theorem ancestry_parent_some {r : CRepo} {c p : Nat} (hp : r.parent c = some p) :
    r.ancestry c = c :: r.ancestry p := by
  have hlt := r.parent_lt c p hp
  unfold CRepo.ancestry
  cases c with
  | zero => omega
  | succ c2 =>
    simp only [ancestryFuel, hp]
    rw [ancestryFuel_stable r p c2 p (by omega) (le_refl p)]

theorem ancestry_cons (r : CRepo) (c : Nat) : ∃ t, r.ancestry c = c :: t := by
  cases hp : r.parent c with
  | none => exact ⟨[], ancestry_parent_none hp⟩
  | some p => exact ⟨r.ancestry p, ancestry_parent_some hp⟩

theorem self_mem_ancestry (r : CRepo) (c : Nat) : c ∈ r.ancestry c := by
  obtain ⟨t, ht⟩ := ancestry_cons r c
  rw [ht]
  exact List.mem_cons_self c t

theorem ancestry_ne_nil (r : CRepo) (c : Nat) : r.ancestry c ≠ [] := by
  obtain ⟨t, ht⟩ := ancestry_cons r c
  rw [ht]
  exact List.cons_ne_nil c t

theorem ancestry_suffix (r : CRepo) :
    ∀ c b, b ∈ r.ancestry c → (r.ancestry b).IsSuffix (r.ancestry c) := by
  intro c
  induction c using Nat.strong_induction_on with
  | _ c ih =>
    intro b hb
    cases hp : r.parent c with
    | none =>
      rw [ancestry_parent_none hp] at hb ⊢
      have : b = c := List.mem_singleton.mp hb
      subst this
      rw [ancestry_parent_none hp]
    | some p =>
      rw [ancestry_parent_some hp] at hb ⊢
      rcases List.mem_cons.mp hb with rfl | h2
      · rw [ancestry_parent_some hp]
      · exact (ih p (r.parent_lt c p hp) b h2).trans (List.suffix_cons c (r.ancestry p))

theorem mem_ancestry_trans {r : CRepo} {a b x : Nat} (hb : b ∈ r.ancestry a)
    (hx : x ∈ r.ancestry b) : x ∈ r.ancestry a :=
  (ancestry_suffix r a b hb).subset hx

theorem getLastD_append_right (l1 l2 : List Nat) (h : l2 ≠ []) :
    ∀ d, (l1 ++ l2).getLastD d = l2.getLastD d := by
  induction l1 with
  | nil => intro d; rfl
  | cons x l1 ih =>
    intro d
    rw [List.cons_append, List.getLastD_cons, ih x]
    cases l2 with
    | nil => exact absurd rfl h
    | cons y t => rw [List.getLastD_cons, List.getLastD_cons]

theorem getLastD_mem (l : List Nat) (h : l ≠ []) : ∀ d, l.getLastD d ∈ l := by
  induction l with
  | nil => exact absurd rfl h
  | cons x t ih =>
    intro d
    rw [List.getLastD_cons]
    cases t with
    | nil => exact List.mem_singleton.mpr rfl
    | cons y ys => exact List.mem_cons_of_mem x (ih (List.cons_ne_nil y ys) x)

theorem croot_eq_of_mem {r : CRepo} {a b : Nat} (hb : b ∈ r.ancestry a) :
    croot r b = croot r a := by
  obtain ⟨pre, hpre⟩ := ancestry_suffix r a b hb
  unfold croot
  rw [← hpre, getLastD_append_right pre (r.ancestry b) (ancestry_ne_nil r b) a]
  obtain ⟨t, ht⟩ := ancestry_cons r b
  rw [ht, List.getLastD_cons, List.getLastD_cons]

theorem croot_mem (r : CRepo) (c : Nat) : croot r c ∈ r.ancestry c :=
  getLastD_mem (r.ancestry c) (ancestry_ne_nil r c) c

theorem contains_of_mem {l : List Nat} {x : Nat} (h : x ∈ l) : l.contains x = true := by
  simp [List.contains, List.elem_iff]
  exact h

theorem mem_of_contains {l : List Nat} {x : Nat} (h : l.contains x = true) : x ∈ l := by
  simp [List.contains, List.elem_iff] at h
  exact h

theorem merge_base_self {r : CRepo} {base head : Nat} (h : base ∈ r.ancestry head) :
    merge_base r base head = some base := by
  unfold merge_base
  obtain ⟨t, ht⟩ := ancestry_cons r base
  rw [ht, List.find?_cons_of_pos _ (contains_of_mem h)]

theorem merge_base_mem {r : CRepo} {a b m : Nat} (h : merge_base r a b = some m) :
    m ∈ r.ancestry a ∧ m ∈ r.ancestry b :=
  ⟨List.mem_of_find?_eq_some h, mem_of_contains (List.find?_some h)⟩

theorem merge_base_some_of_common {r : CRepo} {a b x : Nat}
    (ha : x ∈ r.ancestry a) (hb : x ∈ r.ancestry b) :
    ∃ m, merge_base r a b = some m := by
  cases hmb : merge_base r a b with
  | some m => exact ⟨m, rfl⟩
  | none =>
    unfold merge_base at hmb
    have := List.find?_eq_none.mp hmb x ha
    exact absurd (contains_of_mem hb) (by simpa using this)

theorem merge_base_croot {r : CRepo} {a b m : Nat} (h : merge_base r a b = some m) :
    croot r a = croot r b := by
  obtain ⟨h1, h2⟩ := merge_base_mem h
  rw [← croot_eq_of_mem h1, croot_eq_of_mem h2]

theorem merge_base_of_croot {r : CRepo} {a b : Nat} (h : croot r a = croot r b) :
    ∃ m, merge_base r a b = some m := by
  refine merge_base_some_of_common (croot_mem r a) ?_
  rw [h]
  exact croot_mem r b

theorem takeWhile_head_mem {r : CRepo} {head base : Nat} (h : head ≠ base) :
    head ∈ (r.ancestry head).takeWhile (fun x => x != base) := by
  obtain ⟨t, ht⟩ := ancestry_cons r head
  rw [ht, List.takeWhile_cons_of_pos (by simp [h])]
  exact List.mem_cons_self _ _

theorem takeWhile_nil_iff_base {r : CRepo} {head base : Nat} :
    (r.ancestry head).takeWhile (fun x => x != base) = [] ↔ head = base := by
  obtain ⟨t, ht⟩ := ancestry_cons r head
  rw [ht]
  by_cases h : head = base
  · subst h
    simp [List.takeWhile_cons]
  · rw [List.takeWhile_cons_of_pos (by simp [h])]
    simp [h]


theorem mkNodes_spec : ∀ (ids : List Nat) (bi : Branches),
    (mkNodes ids bi).1.map Node.id = ids ∧ ∀ n ∈ (mkNodes ids bi).1, n.stks = [] := by
  intro ids
  induction ids with
  | nil => intro bi; simp [mkNodes]
  | cons i rest ih =>
    intro bi
    have h := ih (Node.new i bi).2
    simp only [Node.new] at h
    refine ⟨?_, ?_⟩
    · simp [mkNodes, h.1, Node.new, Node.id]
    · intro n hn
      simp only [mkNodes, List.mem_cons] at hn
      rcases hn with rfl | hn
      · simp [Node.new, Node.stks]
      · exact h.2 n (by simpa [Node.new] using hn)

theorem populate_spec (r : CRepo) (base head : Nat) (bi : Branches)
    (h : base ∈ r.ancestry head) :
    ∃ root bi2, populate r base head bi = Except.ok (root, bi2) ∧
      root.id = base ∧
      ((root.stks = [] ∧ head = base) ∨
       (∃ s, root.stks = [s] ∧ s ≠ [] ∧ linearStack s ∧
          s.map Node.id =
            ((r.ancestry head).takeWhile (fun x => x != base)).reverse ∧
          head ≠ base)) := by
  have hmk := mkNodes_spec ((commits_from r head).takeWhile (fun x => x != base))
    (Node.new base bi).2
  have hstep : populate r base head bi =
      (if ((mkNodes ((commits_from r head).takeWhile (fun x => x != base))
            (Node.new base bi).2).1.reverse).isEmpty then
        Except.ok ((Node.new base bi).1,
          (mkNodes ((commits_from r head).takeWhile (fun x => x != base))
            (Node.new base bi).2).2)
      else
        Except.ok (Node.mk (Node.new base bi).1.id (Node.new base bi).1.branches
            ((Node.new base bi).1.stks ++
              [(mkNodes ((commits_from r head).takeWhile (fun x => x != base))
                (Node.new base bi).2).1.reverse]),
          (mkNodes ((commits_from r head).takeWhile (fun x => x != base))
            (Node.new base bi).2).2)) := by
    simp [populate, merge_base_self h]
  by_cases hids : (commits_from r head).takeWhile (fun x => x != base) = []
  · have h1 : List.map Node.id ((mkNodes ((commits_from r head).takeWhile
        (fun x => x != base)) (Node.new base bi).2).1) = [] := by
      rw [hmk.1, hids]
    have hstk : (mkNodes ((commits_from r head).takeWhile (fun x => x != base))
        (Node.new base bi).2).1 = [] := List.map_eq_nil_iff.mp h1
    rw [hstk] at hstep
    simp only [List.reverse_nil, List.isEmpty_nil, if_true] at hstep
    refine ⟨_, _, hstep, by simp [Node.new, Node.id], Or.inl ⟨by simp [Node.new, Node.stks], ?_⟩⟩
    exact takeWhile_nil_iff_base.mp hids
  · have hstk : (mkNodes ((commits_from r head).takeWhile (fun x => x != base))
        (Node.new base bi).2).1 ≠ [] := by
      intro hc
      have h1 := hmk.1
      rw [hc] at h1
      exact hids (by simpa using h1.symm)
    have hrev : (mkNodes ((commits_from r head).takeWhile (fun x => x != base))
        (Node.new base bi).2).1.reverse ≠ [] := by
      simpa using hstk
    rw [if_neg (by simpa [List.isEmpty_iff] using hrev)] at hstep
    refine ⟨_, _, hstep, by simp [Node.new, Node.id], Or.inr ⟨_, ?_, hrev, ?_, ?_, ?_⟩⟩
    · simp [Node.new, Node.stks]
    · intro n hn
      exact hmk.2 n (List.mem_reverse.mp hn)
    · rw [List.map_reverse, hmk.1]
      rfl
    · exact fun hc => hids (takeWhile_nil_iff_base.mpr hc)

theorem NE_mk_iff {i : Nat} {bs : List String} {st : List (List Node)} :
    NE (Node.mk i bs st) ↔ (∀ s ∈ st, s ≠ []) ∧ (∀ s ∈ st, ∀ n ∈ s, NE n) := by
  constructor
  · intro h
    cases h with
    | mk _ _ _ h1 h2 => exact ⟨h1, h2⟩
  · intro h
    exact NE.mk i bs st h.1 h.2

theorem NE_stks {n : Node} (h : NE n) :
    (∀ s ∈ n.stks, s ≠ []) ∧ (∀ s ∈ n.stks, ∀ m ∈ s, NE m) := by
  cases n with
  | mk i bs st => simpa [Node.stks] using NE_mk_iff.mp h

theorem NE_rebrand {n : Node} {i : Nat} {bs : List String} (h : NE n) :
    NE (Node.mk i bs n.stks) :=
  NE_mk_iff.mpr (NE_stks h)

theorem NE_empty {i : Nat} {bs : List String} : NE (Node.mk i bs []) :=
  NE.mk i bs [] (by simp) (by simp)

theorem NE_of_no_stks {n : Node} (h : n.stks = []) : NE n := by
  cases n with
  | mk i bs st =>
    simp only [Node.stks] at h
    subst h
    exact NE_empty

theorem NE_of_stks_eq {n m : Node} (h : NE n) (he : m.stks = n.stks) : NE m := by
  have h2 := NE_stks h
  cases m with
  | mk i bs st =>
    simp only [Node.stks] at he
    subst he
    exact NE_mk_iff.mpr h2

theorem moveBranches_shape : ∀ ls rs : List Node,
    (moveBranches ls rs).1.map Node.id = ls.map Node.id ∧
    (moveBranches ls rs).1.map Node.stks = ls.map Node.stks ∧
    (moveBranches ls rs).2.map Node.id = rs.map Node.id ∧
    (moveBranches ls rs).2.map Node.stks = rs.map Node.stks := by
  intro ls
  induction ls with
  | nil => intro rs; cases rs <;> simp [moveBranches]
  | cons l ls ih =>
    intro rs
    cases rs with
    | nil => simp [moveBranches]
    | cons rr rs =>
      obtain ⟨li, lbs, lst⟩ := l
      obtain ⟨ri, rbs, rst⟩ := rr
      by_cases h : li = ri
      · have h2 := ih rs
        simp [moveBranches, Node.id, Node.stks, h, h2.1, h2.2.1, h2.2.2.1, h2.2.2.2]
      · simp [moveBranches, Node.id, Node.stks, h]

theorem map_stks_NE {ls2 : List Node} : ∀ {ls : List Node},
    ls2.map Node.stks = ls.map Node.stks → (∀ n ∈ ls, NE n) → ∀ n ∈ ls2, NE n := by
  induction ls2 with
  | nil => intro ls _ _ n hn; simp at hn
  | cons x xs ih =>
    intro ls hmap hNE n hn
    cases ls with
    | nil => simp at hmap
    | cons y ys =>
      simp only [List.map_cons, List.cons.injEq] at hmap
      rcases List.mem_cons.mp hn with rfl | hn2
      · exact NE_of_stks_eq (hNE y (by simp)) hmap.1
      · exact ih hmap.2 (fun m hm => hNE m (by simp [hm])) n hn2

theorem commonLen_le : ∀ ls rs : List Node,
    commonLen ls rs ≤ ls.length ∧ commonLen ls rs ≤ rs.length := by
  intro ls
  induction ls with
  | nil => intro rs; cases rs <;> simp [commonLen]
  | cons l ls ih =>
    intro rs
    cases rs with
    | nil => simp [commonLen]
    | cons rr rs =>
      by_cases h : l.id = rr.id
      · have h2 := ih rs
        simp only [commonLen, if_pos h, List.length_cons]
        omega
      · simp only [commonLen, if_neg h]
        omega

theorem commonLen_get : ∀ (ls rs : List Node) (j : Nat), j < commonLen ls rs →
    ∃ ln rn, ls.get? j = some ln ∧ rs.get? j = some rn ∧ ln.id = rn.id := by
  intro ls
  induction ls with
  | nil => intro rs j hj; cases rs <;> simp [commonLen] at hj
  | cons l ls ih =>
    intro rs j hj
    cases rs with
    | nil => simp [commonLen] at hj
    | cons rr rs =>
      by_cases h : l.id = rr.id
      · rw [commonLen, if_pos h] at hj
        cases j with
        | zero => exact ⟨l, rr, rfl, rfl, h⟩
        | succ j2 =>
          obtain ⟨ln, rn, h1, h2, h3⟩ := ih rs j2 (by omega)
          exact ⟨ln, rn, by simpa using h1, by simpa using h2, h3⟩
      · simp [commonLen, h] at hj

theorem commonLen_zero_head {l rr : Node} {ls rs : List Node}
    (h : commonLen (l :: ls) (rr :: rs) = 0) : l.id ≠ rr.id := by
  intro hc
  rw [commonLen, if_pos hc] at h
  exact Nat.succ_ne_zero _ h

theorem take_getLast? (l : List Node) (k : Nat) (hk : k < l.length) :
    (l.take (k + 1)).getLast? = l.get? k := by
  rw [List.take_succ]
  cases hv : l.get? k with
  | none =>
    rw [List.get?_eq_none] at hv
    omega
  | some v =>
    have hv2 : l[k]? = some v := by rw [← List.get?_eq_getElem?]; exact hv
    rw [hv2]
    simp [List.getLast?_concat, Option.toList]

theorem set_self : ∀ (l : List Nat) (i : Nat) (v : Nat),
    l.get? i = some v → l.set i v = l := by
  intro l
  induction l with
  | nil => intro i v h; cases i <;> simp at h
  | cons x xs ih =>
    intro i v h
    cases i with
    | zero =>
      simp only [List.get?_cons_zero, Option.some.injEq] at h
      simp [List.set, h]
    | succ i2 =>
      simp only [List.get?_cons_succ] at h
      simp [List.set, ih i2 v h]

theorem updateLast_map_id (f : Node → Node) (hf : ∀ n, (f n).id = n.id) :
    ∀ l : List Node, (updateLast f l).map Node.id = l.map Node.id := by
  intro l
  induction l with
  | nil => simp [updateLast]
  | cons x xs ih =>
    cases xs with
    | nil => simp [updateLast, hf]
    | cons y ys => simp only [updateLast, List.map_cons, ih]

theorem updateLast_NE (f : Node → Node) (hf : ∀ n, NE n → NE (f n)) :
    ∀ l : List Node, (∀ n ∈ l, NE n) → ∀ n ∈ updateLast f l, NE n := by
  intro l
  induction l with
  | nil => intro _ n hn; simp [updateLast] at hn
  | cons x xs ih =>
    intro h n hn
    cases xs with
    | nil =>
      simp only [updateLast, List.mem_singleton] at hn
      subst hn
      exact hf x (h x (by simp))
    | cons y ys =>
      simp only [updateLast] at hn
      rcases List.mem_cons.mp hn with rfl | hn2
      · exact h n (by simp)
      · exact ih (fun m hm => h m (by simp [hm])) n hn2

theorem mergeStepF_succ_fst (f : Nat) :
    (mergeStepF (f + 1)).1 = mergeStacksBody (mergeStackBody (mergeStepF f).1) := rfl

theorem mergeStepF_succ_snd (f : Nat) :
    (mergeStepF (f + 1)).2 = mergeStackBody (mergeStepF f).1 := rfl

theorem GM_bind_ok {α β : Type} (a : α) (f : α → GM β) :
    (Except.ok a : GM α) >>= f = f a := rfl

theorem GM_bind_err {α β : Type} (e : GErr) (f : α → GM β) :
    (Except.error e : GM α) >>= f = Except.error e := rfl

theorem mergeStackBody_head_diff (g : Node → Node → GM Node) (t s : List Node)
    (ht : t ≠ []) (hs : s ≠ []) (hd : stackFirst t ≠ stackFirst s) :
    mergeStackBody g t s = Except.ok (t, s) := by
  obtain ⟨l, ls, rfl⟩ := List.exists_cons_of_ne_nil ht
  obtain ⟨rr, rs, rfl⟩ := List.exists_cons_of_ne_nil hs
  have hid : l.id ≠ rr.id := by
    intro hc
    exact hd (by simp [stackFirst, hc])
  have hmv : moveBranches (l :: ls) (rr :: rs) = (l :: ls, rr :: rs) := by
    obtain ⟨li, lbs, lst⟩ := l
    obtain ⟨ri, rbs, rst⟩ := rr
    simp only [Node.id] at hid
    simp [moveBranches, Node.id, hid]
  have hcl : commonLen (l :: ls) (rr :: rs) = 0 := by
    rw [commonLen, if_neg hid]
  simp [mergeStackBody, hmv, hcl]

theorem tryMergeWith_no_match (g : Node → Node → GM Node) (s0 : Node) (srest : List Node) :
    ∀ acc : List (List Node), (∀ t ∈ acc, t ≠ []) →
    (∀ t ∈ acc, stackFirst t ≠ stackFirst (s0 :: srest)) →
    tryMergeWith (mergeStackBody g) acc (s0 :: srest) = Except.ok (acc, s0 :: srest) := by
  intro acc
  induction acc with
  | nil => intro _ _; simp [tryMergeWith]
  | cons t ts ih =>
    intro h1 h2
    have hms := mergeStackBody_head_diff g t (s0 :: srest) (h1 t (by simp))
      (by simp) (h2 t (by simp))
    have hrec := ih (fun t' ht' => h1 t' (by simp [ht'])) (fun t' ht' => h2 t' (by simp [ht']))
    simp [tryMergeWith, hms, hrec, GM_bind_ok]

theorem msLoopWith_append (g : Node → Node → GM Node) : ∀ (rss acc : List (List Node)),
    (∀ s ∈ rss, s ≠ []) → (∀ s ∈ acc, s ≠ []) →
    (∀ s ∈ rss, ∀ t ∈ acc, stackFirst t ≠ stackFirst s) →
    rss.Pairwise (fun a b => stackFirst a ≠ stackFirst b) →
    msLoopWith (tryMergeWith (mergeStackBody g)) acc rss = Except.ok (acc ++ rss) := by
  intro rss
  induction rss with
  | nil => intro acc _ _ _ _; simp [msLoopWith]
  | cons s rss ih =>
    intro acc h1 h2 h3 h4
    obtain ⟨s0, srest, hs⟩ := List.exists_cons_of_ne_nil (h1 s (by simp))
    subst hs
    have htm := tryMergeWith_no_match g s0 srest acc h2
      (fun t ht => h3 (s0 :: srest) (by simp) t ht)
    have hrec := ih (acc ++ [s0 :: srest])
      (fun s' h => h1 s' (by simp [h]))
      (by
        intro t ht
        rcases List.mem_append.mp ht with h | h
        · exact h2 t h
        · rw [List.mem_singleton.mp h]
          simp)
      (by
        intro s' hs' t ht
        rcases List.mem_append.mp ht with h | h
        · exact h3 s' (by simp [hs']) t h
        · rw [List.mem_singleton.mp h]
          exact (List.pairwise_cons.mp h4).1 s' hs')
      (List.pairwise_cons.mp h4).2
    rw [msLoopWith, if_neg (by simp)]
    simp [htm, hrec, GM_bind_ok]

theorem merge_fresh (f : Nat) (i : Nat) (bs : List String) (rhs : Node)
    (hid : i = rhs.id) (hne : ∀ s ∈ rhs.stks, s ≠ [])
    (hpw : rhs.stks.Pairwise (fun a b => stackFirst a ≠ stackFirst b))
    (hf : 1 ≤ f) :
    (mergeStepF f).1 (Node.mk i bs []) rhs = Except.ok (Node.mk i bs rhs.stks) := by
  obtain ⟨f2, rfl⟩ : ∃ f2, f = f2 + 1 := ⟨f - 1, by omega⟩
  obtain ⟨ri, rbs, rst⟩ := rhs
  simp only [Node.id] at hid
  simp only [Node.stks] at hne hpw
  rw [mergeStepF_succ_fst]
  have hloop := msLoopWith_append (mergeStepF f2).1 rst [] hne (by simp)
    (by simp) hpw
  unfold mergeStacksBody
  rw [if_neg (by simp [Node.id, hid])]
  simp [Node.stks, Node.id, Node.branches, hloop, GM_bind_ok]

theorem tryMergeWith_spec (ms : List Node → List Node → GM (List Node × List Node))
    (s : List Node) (hs : s ≠ [])
    (hms : ∀ ls, ls ≠ [] → (∀ n ∈ ls, NE n) →
      ∃ ls2 rs2, ms ls s = Except.ok (ls2, rs2) ∧
        ls2.map Node.id = ls.map Node.id ∧ (∀ n ∈ ls2, NE n) ∧
        (rs2 = [] ∨ (ls2 = ls ∧ rs2 = s ∧ stackFirst ls ≠ stackFirst s))) :
    ∀ stks : List (List Node), (∀ st ∈ stks, st ≠ []) →
      (∀ st ∈ stks, ∀ n ∈ st, NE n) →
      ∃ stks2 s2, tryMergeWith ms stks s = Except.ok (stks2, s2) ∧
        stks2.map stackFirst = stks.map stackFirst ∧
        (∀ st ∈ stks2, st ≠ []) ∧ (∀ st ∈ stks2, ∀ n ∈ st, NE n) ∧
        (s2 = [] ∨ (s2 = s ∧ stks2 = stks ∧
          ∀ st ∈ stks, stackFirst st ≠ stackFirst s)) := by
  intro stks
  induction stks with
  | nil =>
    intro _ _
    exact ⟨[], s, by simp [tryMergeWith], rfl, by simp, by simp,
      Or.inr ⟨rfl, rfl, by simp⟩⟩
  | cons t ts ih =>
    intro h1 h2
    obtain ⟨ls2, rs2, heq, hids, hNE2, hdisj⟩ :=
      hms t (h1 t (by simp)) (h2 t (by simp))
    have htne : t ≠ [] := h1 t (by simp)
    have hls2ne : ls2 ≠ [] := by
      intro hc
      rw [hc] at hids
      obtain ⟨t0, trest, rfl⟩ := List.exists_cons_of_ne_nil htne
      simp at hids
    have hfirst : stackFirst ls2 = stackFirst t := by
      simp [stackFirst, hids]
    rcases hdisj with rfl | ⟨hels, hers, hdiff⟩
    · refine ⟨ls2 :: ts, [], ?_, ?_, ?_, ?_, Or.inl rfl⟩
      · simp [tryMergeWith, heq, GM_bind_ok]
      · simp [hfirst]
      · intro st hst
        rcases List.mem_cons.mp hst with rfl | h
        · exact hls2ne
        · exact h1 st (by simp [h])
      · intro st hst n hn
        rcases List.mem_cons.mp hst with rfl | h
        · exact hNE2 n hn
        · exact h2 st (by simp [h]) n hn
    · subst hels
      subst hers
      obtain ⟨stks2, s2, hrec, hf2, hne2, hNE3, hdisj2⟩ :=
        ih (fun st h => h1 st (by simp [h])) (fun st h => h2 st (by simp [h]))
      obtain ⟨s0, srest, rfl⟩ := List.exists_cons_of_ne_nil hs
      refine ⟨ls2 :: stks2, s2, ?_, by simp [hf2], ?_, ?_, ?_⟩
      · simp [tryMergeWith, heq, hrec, GM_bind_ok]
      · intro st hst
        rcases List.mem_cons.mp hst with rfl | h
        · exact htne
        · exact hne2 st h
      · intro st hst n hn
        rcases List.mem_cons.mp hst with rfl | h
        · exact h2 st (by simp) n hn
        · exact hNE3 st h n hn
      · rcases hdisj2 with rfl | ⟨heqs, rfl, hrest⟩
        · exact Or.inl rfl
        · subst heqs
          refine Or.inr ⟨rfl, rfl, ?_⟩
          intro st hst
          rcases List.mem_cons.mp hst with rfl | h
          · exact hdiff
          · exact hrest st h

theorem mergeStep_spec : ∀ f : Nat,
    (∀ lhs rhs : Node, 2 * stacksLen rhs.stks + 1 ≤ f → NE lhs → lhs.id = rhs.id →
      (∀ s ∈ rhs.stks, s ≠ [] ∧ linearStack s) → rhs.stks.length ≤ 1 →
      ∃ out, (mergeStepF f).1 lhs rhs = Except.ok out ∧ out.id = lhs.id ∧ NE out ∧
        (out.stks.map stackFirst = lhs.stks.map stackFirst ∨
         ∃ s, rhs.stks = [s] ∧
           out.stks.map stackFirst = lhs.stks.map stackFirst ++ [stackFirst s] ∧
           stackFirst s ∉ lhs.stks.map stackFirst)) ∧
    (∀ ls rs : List Node, 2 * rs.length ≤ f → ls ≠ [] → (∀ n ∈ ls, NE n) →
      rs ≠ [] → linearStack rs →
      ∃ ls2 rs2, (mergeStepF f).2 ls rs = Except.ok (ls2, rs2) ∧
        ls2.map Node.id = ls.map Node.id ∧ (∀ n ∈ ls2, NE n) ∧
        (rs2 = [] ∨ (ls2 = ls ∧ rs2 = rs ∧ stackFirst ls ≠ stackFirst rs))) := by
  intro f
  induction f with
  | zero =>
    constructor
    · intro lhs rhs hf
      exact absurd hf (by omega)
    · intro ls rs hf hls hlsNE hrs hlin
      exact absurd (List.length_eq_zero.mp (by omega)) hrs
  | succ f ih =>
    have hstk : ∀ ls rs : List Node, 2 * rs.length ≤ f + 1 → ls ≠ [] →
        (∀ n ∈ ls, NE n) → rs ≠ [] → linearStack rs →
        ∃ ls2 rs2, (mergeStepF (f + 1)).2 ls rs = Except.ok (ls2, rs2) ∧
          ls2.map Node.id = ls.map Node.id ∧ (∀ n ∈ ls2, NE n) ∧
          (rs2 = [] ∨ (ls2 = ls ∧ rs2 = rs ∧ stackFirst ls ≠ stackFirst rs)) := by
      intro ls rs hf hlsne hlsNE hrsne hrslin
      rw [mergeStepF_succ_snd]
      obtain ⟨l0, ls0, rfl⟩ := List.exists_cons_of_ne_nil hlsne
      obtain ⟨r0, rs0, rfl⟩ := List.exists_cons_of_ne_nil hrsne
      have hsh := moveBranches_shape (l0 :: ls0) (r0 :: rs0)
      unfold mergeStackBody
      rw [if_neg (by simp), if_neg (by simp)]
      simp only []
      cases hmv : moveBranches (l0 :: ls0) (r0 :: rs0) with
      | mk mls mrs =>
        rw [hmv] at hsh
        simp only at hsh
        obtain ⟨hshi1, hshs1, hshi2, hshs2⟩ := hsh
        have hmlslen : mls.length = ls0.length + 1 := by
          have := congrArg List.length hshi1
          simpa using this
        have hmrslen : mrs.length = rs0.length + 1 := by
          have := congrArg List.length hshi2
          simpa using this
        have hmlsne : mls ≠ [] := by
          intro hc
          rw [hc] at hmlslen
          simp at hmlslen
        have hmrsne : mrs ≠ [] := by
          intro hc
          rw [hc] at hmrslen
          simp at hmrslen
        have hmlsNE : ∀ n ∈ mls, NE n := map_stks_NE hshs1 hlsNE
        have hmrslin : linearStack mrs := by
          intro n hn
          have h3 : n.stks ∈ mrs.map Node.stks := List.mem_map_of_mem _ hn
          rw [hshs2] at h3
          obtain ⟨m, hm, hmeq⟩ := List.mem_map.mp h3
          rw [← hmeq]
          exact hrslin m hm
        have hkle := commonLen_le mls mrs
        by_cases hk1 : commonLen mls mrs = mrs.length
        · rw [if_pos hk1]
          exact ⟨mls, [], rfl, hshi1, hmlsNE, Or.inl rfl⟩
        · rw [if_neg hk1]
          by_cases hk2 : commonLen mls mrs = mls.length
          · rw [if_pos hk2]
            have hkltr : commonLen mls mrs < mrs.length :=
              lt_of_le_of_ne hkle.2 hk1
            have hdropne : mrs.drop (commonLen mls mrs) ≠ [] := by
              intro hc
              rw [List.drop_eq_nil_iff_le] at hc
              omega
            refine ⟨_, [], rfl, ?_, ?_, Or.inl rfl⟩
            · rw [updateLast_map_id _ (fun n => by simp [Node.id]), hshi1]
            · refine updateLast_NE _ (fun n hNEn => ?_) mls hmlsNE
              refine NE_mk_iff.mpr ⟨?_, ?_⟩
              · intro s hsmem
                rcases List.mem_append.mp hsmem with h | h
                · exact (NE_stks hNEn).1 s h
                · rw [List.mem_singleton.mp h]
                  exact hdropne
              · intro s hsmem n2 hn2
                rcases List.mem_append.mp hsmem with h | h
                · exact (NE_stks hNEn).2 s h n2 hn2
                · rw [List.mem_singleton.mp h] at hn2
                  exact NE_of_no_stks (hmrslin n2 (List.mem_of_mem_drop hn2))
          · rw [if_neg hk2]
            by_cases hk3 : commonLen mls mrs = 0
            · rw [if_pos hk3]
              obtain ⟨m0, mls2, rfl⟩ := List.exists_cons_of_ne_nil hmlsne
              obtain ⟨n0, mrs2, rfl⟩ := List.exists_cons_of_ne_nil hmrsne
              have hhead : m0.id ≠ n0.id := commonLen_zero_head hk3
              have hm0 : m0.id = l0.id := by
                simpa using congrArg List.head? hshi1
              have hn0 : n0.id = r0.id := by
                simpa using congrArg List.head? hshi2
              have hl0r0 : l0.id ≠ r0.id := by
                rw [← hm0, ← hn0]
                exact hhead
              have hmvid : moveBranches (l0 :: ls0) (r0 :: rs0) = (l0 :: ls0, r0 :: rs0) := by
                obtain ⟨lia, lbs, lst⟩ := l0
                obtain ⟨ria, rbs, rst⟩ := r0
                simp only [Node.id] at hl0r0
                simp [moveBranches, Node.id, hl0r0]
              rw [hmvid] at hmv
              have hA : l0 :: ls0 = m0 :: mls2 := congrArg Prod.fst hmv
              have hB : r0 :: rs0 = n0 :: mrs2 := congrArg Prod.snd hmv
              refine ⟨m0 :: mls2, n0 :: mrs2, rfl, hshi1, hmlsNE,
                Or.inr ⟨hA.symm, hB.symm, ?_⟩⟩
              intro hc
              exact hl0r0 (by simpa [stackFirst] using hc)
            · rw [if_neg hk3]
              obtain ⟨k2, hkk⟩ : ∃ k2, commonLen mls mrs = k2 + 1 :=
                ⟨commonLen mls mrs - 1, by omega⟩
              rw [hkk]
              simp only [Nat.add_sub_cancel]
              have hk2r : k2 + 1 < mrs.length := by
                have h6 := hkle.2
                have h7 : commonLen mls mrs ≠ mrs.length := hk1
                omega
              have hk2l : k2 + 1 < mls.length := by
                have h6 := hkle.1
                have h7 : commonLen mls mrs ≠ mls.length := hk2
                omega
              rw [take_getLast? mrs k2 (by omega)]
              cases hpop : mrs.get? k2 with
              | none =>
                rw [List.get?_eq_none] at hpop
                omega
              | some popped =>
                have hpoplin : popped.stks = [] :=
                  hmrslin popped (List.get?_mem hpop)
                cases hlget : mls.get? k2 with
                | none =>
                  rw [List.get?_eq_none] at hlget
                  omega
                | some lnode =>
                  obtain ⟨ln, rn, hln, hrn, hideq⟩ :=
                    commonLen_get mls mrs k2 (by omega)
                  rw [hlget] at hln
                  rw [hpop] at hrn
                  have hlnid : lnode.id = popped.id := by
                    rw [Option.some.inj hln, Option.some.inj hrn]
                    exact hideq
                  have hfuel : 2 * stacksLen
                      (Node.mk popped.id popped.branches [mrs.drop (k2 + 1)]).stks + 1 ≤ f := by
                    have hd : (mrs.drop (k2 + 1)).length = mrs.length - (k2 + 1) :=
                      List.length_drop _ _
                    have hb : (r0 :: rs0).length = rs0.length + 1 := by simp
                    simp only [Node.stks, stacksLen, List.map_cons, List.map_nil,
                      List.sum_cons, List.sum_nil, hd]
                    omega
                  obtain ⟨merged, hmeq, hmid, hmNE, _⟩ :=
                    ih.1 lnode (Node.mk popped.id popped.branches [mrs.drop (k2 + 1)])
                      hfuel (hmlsNE lnode (List.get?_mem hlget))
                      (hlnid.trans rfl)
                      (by
                        intro s hsm
                        rw [List.mem_singleton.mp hsm]
                        constructor
                        · intro hc
                          rw [List.drop_eq_nil_iff] at hc
                          omega
                        · intro n2 hn2
                          exact hmrslin n2 (List.mem_of_mem_drop hn2))
                      (by simp [Node.stks])
                  refine ⟨mls.set k2 merged, [], ?_, ?_, ?_, Or.inl rfl⟩
                  · simp [hpoplin, hmeq, GM_bind_ok]
                  · rw [List.map_set, hmid, set_self, hshi1]
                    rw [List.get?_map, hlget]
                    rfl
                  · intro n hn
                    rcases List.mem_or_eq_of_mem_set hn with h | h
                    · exact hmlsNE n h
                    · rw [h]
                      exact hmNE
    refine ⟨?_, hstk⟩
    intro lhs rhs hf hNEl hid hrstks hrlen
    obtain ⟨li, lbs, lst⟩ := lhs
    obtain ⟨ri, rbs, rst⟩ := rhs
    simp only [Node.id] at hid
    simp only [Node.stks] at hrstks hrlen hf ⊢
    have hlstf := NE_stks hNEl
    simp only [Node.stks] at hlstf
    have hfst : (mergeStepF (f + 1)).1 = mergeStacksBody (mergeStepF (f + 1)).2 := by
      rw [mergeStepF_succ_fst, mergeStepF_succ_snd]
    rw [hfst]
    unfold mergeStacksBody
    rw [if_neg (by simp [Node.id, hid])]
    simp only [Node.id, Node.stks, Node.branches]
    cases rst with
    | nil =>
      refine ⟨Node.mk li lbs lst, ?_, by simp [Node.id], hNEl,
        Or.inl (by simp [Node.stks])⟩
      rw [msLoopWith]
      simp [GM_bind_ok]
    | cons s srest =>
      have hsrest : srest = [] := by
        cases srest with
        | nil => rfl
        | cons a b => simp at hrlen
      subst hsrest
      have hsne : s ≠ [] := (hrstks s (by simp)).1
      have hslin : linearStack s := (hrstks s (by simp)).2
      have hfuel : 2 * s.length ≤ f + 1 := by
        simp only [stacksLen, List.map_cons, List.map_nil, List.sum_cons,
          List.sum_nil] at hf
        omega
      have hms : ∀ ls, ls ≠ [] → (∀ n ∈ ls, NE n) →
          ∃ ls2 rs2, (mergeStepF (f + 1)).2 ls s = Except.ok (ls2, rs2) ∧
            ls2.map Node.id = ls.map Node.id ∧ (∀ n ∈ ls2, NE n) ∧
            (rs2 = [] ∨ (ls2 = ls ∧ rs2 = s ∧ stackFirst ls ≠ stackFirst s)) :=
        fun ls h1 h2 => hstk ls s hfuel h1 h2 hsne hslin
      obtain ⟨stks2, s2, htm, hfirsts, hne2, hNE2, hdisj⟩ :=
        tryMergeWith_spec (mergeStepF (f + 1)).2 s hsne hms lst hlstf.1 hlstf.2
      rw [msLoopWith, if_neg (by simp [List.isEmpty_iff, hsne])]
      rcases hdisj with rfl | ⟨hs2, hstks2, hall⟩
      · refine ⟨Node.mk li lbs stks2, ?_, by simp [Node.id], ?_, ?_⟩
        · rw [htm]
          simp only [GM_bind_ok]
          rw [msLoopWith]
          simp [GM_bind_ok]
        · exact NE_mk_iff.mpr ⟨hne2, fun st hst n hn => hNE2 st hst n hn⟩
        · exact Or.inl (by simp [Node.stks, hfirsts])
      · subst hs2
        subst hstks2
        obtain ⟨s0, srest2, rfl⟩ := List.exists_cons_of_ne_nil hsne
        refine ⟨Node.mk li lbs (stks2 ++ [s0 :: srest2]), ?_, by simp [Node.id], ?_,
          Or.inr ⟨s0 :: srest2, rfl, ?_, ?_⟩⟩
        · rw [htm]
          simp only [GM_bind_ok]
          rw [msLoopWith]
          simp [GM_bind_ok]
        · refine NE_mk_iff.mpr ⟨?_, ?_⟩
          · intro st hst
            rcases List.mem_append.mp hst with h | h
            · exact hlstf.1 st h
            · rw [List.mem_singleton.mp h]
              exact hsne
          · intro st hst n hn
            rcases List.mem_append.mp hst with h | h
            · exact hlstf.2 st h n hn
            · rw [List.mem_singleton.mp h] at hn
              exact NE_of_no_stks (hslin n hn)
        · simp [Node.stks]
        · intro hmem
          obtain ⟨st, hstm, heq2⟩ := List.mem_map.mp hmem
          exact hall st hstm heq2

theorem GM_map_ok {α β : Type} (g : α → β) (a : α) :
    (Except.ok a : GM α).map g = Except.ok (g a) := rfl

theorem nodup_map_pairwise {l : List (List Node)}
    (h : (l.map stackFirst).Nodup) :
    l.Pairwise (fun a b => stackFirst a ≠ stackFirst b) := by
  induction l with
  | nil => exact List.Pairwise.nil
  | cons x xs ih =>
    rw [List.map_cons, List.nodup_cons] at h
    refine List.Pairwise.cons ?_ (ih h.2)
    intro b hb hc
    exact h.1 (by rw [hc]; exact List.mem_map_of_mem stackFirst hb)

theorem merge_spec (self other : Node) (hNE : NE self) (hid : self.id = other.id)
    (h1 : ∀ s ∈ other.stks, s ≠ [] ∧ linearStack s) (h2 : other.stks.length ≤ 1) :
    ∃ out, Node.merge self other = Except.ok out ∧ out.id = self.id ∧ NE out ∧
      (out.stks.map stackFirst = self.stks.map stackFirst ∨
       ∃ s, other.stks = [s] ∧
         out.stks.map stackFirst = self.stks.map stackFirst ++ [stackFirst s] ∧
         stackFirst s ∉ self.stks.map stackFirst) := by
  obtain ⟨si, sbs, sst⟩ := self
  obtain ⟨oi, obs, ost⟩ := other
  simp only [Node.id, Node.stks] at hid h1 h2 ⊢
  obtain ⟨out, heq, hoid, hNEo, hfst⟩ :=
    (mergeStep_spec (2 * stacksLen ost + 1)).1
      (Node.mk si (sbs ++ obs) sst) (Node.mk oi [] ost)
      (by simp [Node.stks])
      (NE_of_stks_eq hNE (by simp [Node.stks]))
      (by simp [Node.id, hid])
      (by simpa [Node.stks] using h1)
      (by simpa [Node.stks] using h2)
  refine ⟨out, ?_, by simpa [Node.id] using hoid, hNEo, ?_⟩
  · unfold Node.merge merge_stacks
    simp only [Node.id, Node.branches, Node.stks]
    exact heq
  · simpa [Node.stks] using hfst

theorem merge_good (self other : Node) (hG : GoodTree self) (hid : self.id = other.id)
    (h1 : ∀ s ∈ other.stks, s ≠ [] ∧ linearStack s) (h2 : other.stks.length ≤ 1) :
    ∃ out, Node.merge self other = Except.ok out ∧ out.id = self.id ∧ GoodTree out := by
  obtain ⟨out, heq, hoid, hNEo, hfst⟩ := merge_spec self other hG.1 hid h1 h2
  refine ⟨out, heq, hoid, hNEo, ?_⟩
  rcases hfst with h | ⟨s, hrs, hmap, hnot⟩
  · rw [h]
    exact hG.2
  · rw [hmap]
    simp [List.nodup_append, hG.2, hnot]

theorem pushStack_fresh : ∀ (s : List Node) (old : Node),
    linearStack s → old.id ∈ s.map Node.id → GoodTree old →
    ∃ s2, pushStack s old = Except.ok (some s2) ∧
      s2.map Node.id = s.map Node.id ∧ ∀ n ∈ s2, NE n := by
  intro s
  induction s with
  | nil =>
    intro old _ hmem
    simp at hmem
  | cons n ns ih =>
    intro old hlin hmem hG
    obtain ⟨n0i, nbs, nst⟩ := n
    obtain ⟨oi, obs, ost⟩ := old
    have hnst : nst = [] := by
      simpa [Node.stks] using hlin _ (List.mem_cons_self _ _)
    subst hnst
    have hG2 := hG.2
    simp only [Node.stks] at hG2
    have hNEfacts := NE_stks hG.1
    simp only [Node.stks] at hNEfacts
    simp only [List.map_cons, Node.id, List.mem_cons] at hmem
    by_cases hidm : n0i = oi
    · subst hidm
      have hpw := nodup_map_pairwise hG2
      have hmg : Node.merge (Node.mk n0i nbs []) (Node.mk n0i obs ost) =
          Except.ok (Node.mk n0i (nbs ++ obs) ost) := by
        unfold Node.merge merge_stacks
        simp only [Node.id, Node.branches, Node.stks]
        exact merge_fresh (2 * stacksLen ost + 1) n0i (nbs ++ obs)
          (Node.mk n0i [] ost) (by simp [Node.id])
          (by simpa [Node.stks] using hNEfacts.1)
          (by simpa [Node.stks] using hpw)
          (by omega)
      refine ⟨Node.mk n0i (nbs ++ obs) ost :: ns, ?_, by simp [Node.id], ?_⟩
      · simp [pushStack, Node.push, Node.id, hmg, GM_map_ok, GM_bind_ok]
      · intro m hm
        rcases List.mem_cons.mp hm with rfl | h
        · exact NE_mk_iff.mpr hNEfacts
        · exact NE_of_no_stks (hlin m (by simp [h]))
    · have hpush : Node.push (Node.mk n0i nbs []) (Node.mk oi obs ost) =
          Except.ok none := by
        simp [Node.push, Node.id, hidm, pushStks, GM_bind_ok]
      have hmem2 : oi ∈ ns.map Node.id := by
        rcases hmem with h | h
        · exact absurd h.symm hidm
        · exact h
      obtain ⟨ns2, hrec, hid2, hNE2⟩ :=
        ih (Node.mk oi obs ost) (fun m hm => hlin m (by simp [hm]))
          (by simpa [Node.id] using hmem2) hG
      refine ⟨Node.mk n0i nbs [] :: ns2, ?_, ?_, ?_⟩
      · simp [pushStack, hpush, hrec, GM_bind_ok]
      · simp [Node.id, hid2]
      · intro m hm
        rcases List.mem_cons.mp hm with rfl | h
        · exact NE_empty
        · exact hNE2 m h

theorem push_node (mb : Nat) (bbs : List String) (chain : List Node) (t : Node)
    (hne : mb ≠ t.id) (hlin : linearStack chain) (hmem : t.id ∈ chain.map Node.id)
    (hG : GoodTree t) :
    ∃ chain2, Node.push (Node.mk mb bbs [chain]) t =
        Except.ok (some (Node.mk mb bbs [chain2])) ∧
      chain2.map Node.id = chain.map Node.id ∧ ∀ n ∈ chain2, NE n := by
  obtain ⟨chain2, hps, hid2, hNE2⟩ := pushStack_fresh chain t hlin hmem hG
  obtain ⟨ti, tbs, tst⟩ := t
  simp only [Node.id] at hne
  refine ⟨chain2, ?_, hid2, hNE2⟩
  simp [Node.push, Node.id, hne, pushStks, hps, GM_bind_ok]

theorem insert_none {r : CRepo} {t : Node} {tip : Nat} {bi : Branches}
    (h : merge_base r t.id tip = none) :
    Node.insert t r tip bi = Except.error GErr.noMergeBase := by
  unfold Node.insert
  rw [h]

theorem insert_some_spec (r : CRepo) (t : Node) (tip : Nat) (bi : Branches) (mb : Nat)
    (hG : GoodTree t) (hmb : merge_base r t.id tip = some mb) :
    ∃ t2 bi2, Node.insert t r tip bi = Except.ok (t2, bi2) ∧ GoodTree t2 ∧
      t2.id = mb := by
  have hmbt : mb ∈ r.ancestry t.id := (merge_base_mem hmb).1
  have hmbtip : mb ∈ r.ancestry tip := (merge_base_mem hmb).2
  unfold Node.insert
  rw [hmb]
  simp only []
  by_cases hmbid : mb = t.id
  · subst hmbid
    rw [if_neg (by simp)]
    obtain ⟨root, bi2, hpop, hrid, hstks⟩ := populate_spec r t.id tip bi hmbtip
    have h1 : ∀ s ∈ root.stks, s ≠ [] ∧ linearStack s := by
      rcases hstks with ⟨hnil, _⟩ | ⟨s, hss, hne, hlins, _, _⟩
      · rw [hnil]
        simp
      · rw [hss]
        intro s2 hs2
        rw [List.mem_singleton.mp hs2]
        exact ⟨hne, hlins⟩
    have h2 : root.stks.length ≤ 1 := by
      rcases hstks with ⟨hnil, _⟩ | ⟨s, hss, _, _, _, _⟩
      · rw [hnil]; simp
      · rw [hss]; simp
    obtain ⟨out, hmg, hoid, hGout⟩ := merge_good t root hG hrid.symm h1 h2
    refine ⟨out, bi2, ?_, hGout, hoid⟩
    simp [hpop, hmg, GM_bind_ok]
  · rw [if_pos hmbid]
    obtain ⟨pre, bi1, hpop1, hpreid, hprestks⟩ := populate_spec r mb t.id bi hmbt
    rcases hprestks with ⟨hnil, heq⟩ | ⟨chain, hchain, hchne, hchlin, hchids, hneq⟩
    · exact absurd heq.symm hmbid
    · have htmem : t.id ∈ chain.map Node.id := by
        rw [hchids]
        exact List.mem_reverse.mpr (takeWhile_head_mem hneq)
      obtain ⟨pi, pbs, pst⟩ := pre
      simp only [Node.id] at hpreid
      simp only [Node.stks] at hchain
      subst hpreid
      subst hchain
      obtain ⟨chain2, hpush, hc2ids, hc2NE⟩ :=
        push_node pi pbs chain t (fun hc => hmbid hc) hchlin htmem hG
      have hc2ne : chain2 ≠ [] := by
        intro hc
        rw [hc] at hc2ids
        obtain ⟨c0, crest, rfl⟩ := List.exists_cons_of_ne_nil hchne
        simp at hc2ids
      have hGpre2 : GoodTree (Node.mk pi pbs [chain2]) := by
        constructor
        · refine NE_mk_iff.mpr ⟨?_, ?_⟩
          · intro s hs2
            rw [List.mem_singleton.mp hs2]
            exact hc2ne
          · intro s hs2 n hn
            rw [List.mem_singleton.mp hs2] at hn
            exact hc2NE n hn
        · simp [Node.stks]
      obtain ⟨other, bi2, hpop2, hotherid, hotherstks⟩ :=
        populate_spec r pi tip bi1 hmbtip
      have h1 : ∀ s ∈ other.stks, s ≠ [] ∧ linearStack s := by
        rcases hotherstks with ⟨hnil, _⟩ | ⟨s, hss, hne, hlins, _, _⟩
        · rw [hnil]; simp
        · rw [hss]
          intro s2 hs2
          rw [List.mem_singleton.mp hs2]
          exact ⟨hne, hlins⟩
      have h2 : other.stks.length ≤ 1 := by
        rcases hotherstks with ⟨hnil, _⟩ | ⟨s, hss, _, _, _, _⟩
        · rw [hnil]; simp
        · rw [hss]; simp
      obtain ⟨out, hmg, hoid, hGout⟩ :=
        merge_good (Node.mk pi pbs [chain2]) other hGpre2
          (by simpa [Node.id] using hotherid.symm) h1 h2
      refine ⟨out, bi2, ?_, hGout, by simpa [Node.id] using hoid⟩
      simp [hpop1, hpush, hpop2, hmg, GM_bind_ok]

theorem insertAll_cons_eq (r : CRepo) (root : Node) (id : Nat) (rest : List Nat)
    (bi : Branches) {t2 : Node} {bi2 : Branches}
    (h : Node.insert root r id bi = Except.ok (t2, bi2)) :
    insertAll r root (id :: rest) bi = insertAll r t2 rest bi2 := by
  simp [insertAll, h, GM_bind_ok]

theorem insertAll_cons_err (r : CRepo) (root : Node) (id : Nat) (rest : List Nat)
    (bi : Branches) {e : GErr}
    (h : Node.insert root r id bi = Except.error e) :
    insertAll r root (id :: rest) bi = Except.error e := by
  simp [insertAll, h, GM_bind_err]

theorem insertAll_good (r : CRepo) : ∀ (tips : List Nat) (t : Node) (bi : Branches),
    GoodTree t →
    (∃ t2, insertAll r t tips bi = Except.ok t2 ∧ GoodTree t2 ∧
      croot r t2.id = croot r t.id) ∨
    insertAll r t tips bi = Except.error GErr.noMergeBase := by
  intro tips
  induction tips with
  | nil =>
    intro t bi hG
    exact Or.inl ⟨t, by simp [insertAll], hG, rfl⟩
  | cons tip rest ih =>
    intro t bi hG
    cases hmb : merge_base r t.id tip with
    | none =>
      exact Or.inr (insertAll_cons_err r t tip rest bi (insert_none hmb))
    | some mb =>
      obtain ⟨t2, bi2, hins, hG2, hid2⟩ := insert_some_spec r t tip bi mb hG hmb
      have hcr : croot r t2.id = croot r t.id := by
        rw [hid2]
        exact croot_eq_of_mem (merge_base_mem hmb).1
      rw [insertAll_cons_eq r t tip rest bi hins]
      rcases ih t2 bi2 hG2 with ⟨t3, h3, hG3, hcr3⟩ | herr
      · exact Or.inl ⟨t3, h3, hG3, hcr3.trans hcr⟩
      · exact Or.inr herr

theorem insertAll_same_croot (r : CRepo) : ∀ (tips : List Nat) (t : Node) (bi : Branches),
    GoodTree t → (∀ tip ∈ tips, croot r tip = croot r t.id) →
    ∃ t2, insertAll r t tips bi = Except.ok t2 ∧ GoodTree t2 ∧
      croot r t2.id = croot r t.id := by
  intro tips
  induction tips with
  | nil =>
    intro t bi hG _
    exact ⟨t, by simp [insertAll], hG, rfl⟩
  | cons tip rest ih =>
    intro t bi hG hall
    obtain ⟨mb, hmb⟩ := merge_base_of_croot (hall tip (by simp)).symm
    obtain ⟨t2, bi2, hins, hG2, hid2⟩ := insert_some_spec r t tip bi mb hG hmb
    have hcr : croot r t2.id = croot r t.id := by
      rw [hid2]
      exact croot_eq_of_mem (merge_base_mem hmb).1
    rw [insertAll_cons_eq r t tip rest bi hins]
    obtain ⟨t3, h3, hG3, hcr3⟩ := ih t2 bi2 hG2
      (fun tp htp => by rw [hcr]; exact hall tp (by simp [htp]))
    exact ⟨t3, h3, hG3, hcr3.trans hcr⟩

theorem insertAll_bad (r : CRepo) : ∀ (tips : List Nat) (t : Node) (bi : Branches),
    GoodTree t → (∃ tip ∈ tips, croot r tip ≠ croot r t.id) →
    insertAll r t tips bi = Except.error GErr.noMergeBase := by
  intro tips
  induction tips with
  | nil =>
    intro t bi _ hbad
    simp at hbad
  | cons tip rest ih =>
    intro t bi hG hbad
    by_cases hcr : croot r tip = croot r t.id
    · obtain ⟨mb, hmb⟩ := merge_base_of_croot hcr.symm
      obtain ⟨t2, bi2, hins, hG2, hid2⟩ := insert_some_spec r t tip bi mb hG hmb
      have hcr2 : croot r t2.id = croot r t.id := by
        rw [hid2]
        exact croot_eq_of_mem (merge_base_mem hmb).1
      rw [insertAll_cons_eq r t tip rest bi hins]
      obtain ⟨x, hx, hxne⟩ := hbad
      rcases List.mem_cons.mp hx with rfl | hx2
      · exact absurd hcr hxne
      · exact ih t2 bi2 hG2 ⟨x, hx2, by rw [hcr2]; exact hxne⟩
    · cases hmb : merge_base r t.id tip with
      | some mb => exact absurd (merge_base_croot hmb).symm hcr
      | none => exact insertAll_cons_err r t tip rest bi (insert_none hmb)


theorem strLeB_refl (a : String) : strLeB a a = true := by
  simp [strLeB]

theorem strLeB_total (a b : String) : strLeB a b = true ∨ strLeB b a = true := by
  rcases strLtB_total a b with h | h | h
  · exact Or.inl (by simp [strLeB, h])
  · exact Or.inr (by simp [strLeB, h])
  · subst h
    exact Or.inl (strLeB_refl a)

theorem strLeB_trans {a b c : String} (h1 : strLeB a b = true)
    (h2 : strLeB b c = true) : strLeB a c = true := by
  simp only [strLeB, Bool.or_eq_true, beq_iff_eq] at h1 h2 ⊢
  rcases h1 with h1 | h1
  · rcases h2 with h2 | h2
    · exact Or.inl (strLtB_trans h1 h2)
    · subst h2
      exact Or.inl h1
  · subst h1
    exact h2

theorem insertSorted_perm (bi : Branches) (x : Nat) :
    ∀ l : List Nat, (insertSorted bi x l).Perm (x :: l) := by
  intro l
  induction l with
  | nil => simp [insertSorted]
  | cons y ys ih =>
    by_cases h : strLeB (sortKey bi y) (sortKey bi x) = true
    · rw [insertSorted, if_pos h]
      exact (ih.cons y).trans (List.Perm.swap x y ys)
    · rw [insertSorted, if_neg h]

theorem sortOids_perm (bi : Branches) : ∀ l : List Nat, (sortOids bi l).Perm l := by
  intro l
  induction l with
  | nil => simp [sortOids]
  | cons x xs ih =>
    rw [sortOids]
    exact (insertSorted_perm bi x (sortOids bi xs)).trans (ih.cons x)

theorem insertSorted_pairwise (bi : Branches) (x : Nat) :
    ∀ l : List Nat,
      l.Pairwise (fun a b => strLeB (sortKey bi a) (sortKey bi b) = true) →
      (insertSorted bi x l).Pairwise
        (fun a b => strLeB (sortKey bi a) (sortKey bi b) = true) := by
  intro l
  induction l with
  | nil =>
    intro _
    simp [insertSorted]
  | cons y ys ih =>
    intro hp
    rw [List.pairwise_cons] at hp
    by_cases h : strLeB (sortKey bi y) (sortKey bi x) = true
    · rw [insertSorted, if_pos h]
      rw [List.pairwise_cons]
      refine ⟨?_, ih hp.2⟩
      intro z hz
      rcases List.mem_cons.mp ((insertSorted_perm bi x ys).mem_iff.mp hz) with rfl | hz2
      · exact h
      · exact hp.1 z hz2
    · rw [insertSorted, if_neg h]
      rw [List.pairwise_cons]
      have hxy : strLeB (sortKey bi x) (sortKey bi y) = true := by
        rcases strLeB_total (sortKey bi x) (sortKey bi y) with h2 | h2
        · exact h2
        · exact absurd h2 h
      refine ⟨?_, List.Pairwise.cons hp.1 hp.2⟩
      intro z hz
      rcases List.mem_cons.mp hz with rfl | hz2
      · exact hxy
      · exact strLeB_trans hxy (hp.1 z hz2)

theorem sortOids_pairwise (bi : Branches) : ∀ l : List Nat,
    (sortOids bi l).Pairwise
      (fun a b => strLeB (sortKey bi a) (sortKey bi b) = true) := by
  intro l
  induction l with
  | nil => simp [sortOids]
  | cons x xs ih =>
    rw [sortOids]
    exact insertSorted_pairwise bi x (sortOids bi xs) ih

theorem sorted_head_le (l : List String)
    (hl : l.Pairwise (fun a b => strLtB a b = true)) :
    ∀ nm ∈ l, strLeB (l.headD ("")) nm = true := by
  cases l with
  | nil => simp
  | cons h t =>
    intro nm hnm
    rcases List.mem_cons.mp hnm with rfl | h2
    · exact strLeB_refl nm
    · have := (List.pairwise_cons.mp hl).1 nm h2
      simp [strLeB, this]

theorem biGet_mem {bi : Branches} {id : Nat} (h : id ∈ biOids bi) :
    ∃ l, biGet bi id = some l ∧ (id, l) ∈ bi := by
  obtain ⟨p, hp, hp1⟩ := List.mem_map.mp h
  have hsome : (bi.find? (fun q => q.1 == id)).isSome := by
    rw [List.find?_isSome]
    exact ⟨p, hp, by simp [hp1]⟩
  cases hq : bi.find? (fun q => q.1 == id) with
  | none => rw [hq] at hsome; simp at hsome
  | some q =>
    have hqmem := List.mem_of_find?_eq_some hq
    have hqkey : q.1 = id := by simpa using List.find?_some hq
    refine ⟨q.2, by simp [biGet, hq], ?_⟩
    rw [← hqkey]
    exact hqmem

theorem root_good (first : Nat) (bi : Branches) :
    GoodTree (Node.new first bi).1 ∧ (Node.new first bi).1.id = first := by
  refine ⟨⟨?_, ?_⟩, ?_⟩
  · exact NE_empty
  · simp [Node.new, Node.stks]
  · simp [Node.new, Node.id]

theorem from_branches_eq (r : CRepo) (bi : Branches) (hne : bi ≠ [])
    {first : Nat} {rest : List Nat}
    (hsort : sortOids bi (biOids bi) = first :: rest) :
    from_branches r bi =
      insertAll r (Node.new first bi).1 rest (Node.new first bi).2 := by
  unfold from_branches
  rw [if_neg (by simp [biIsEmpty, List.isEmpty_iff, hne]), hsort]

theorem sortOids_biOids_ne_nil {bi : Branches} (hne : bi ≠ []) :
    sortOids bi (biOids bi) ≠ [] := by
  intro hc
  have hperm := sortOids_perm bi (biOids bi)
  rw [hc] at hperm
  have := hperm.symm.eq_nil
  exact hne (by simpa [biOids] using this)

theorem from_branches_cases (r : CRepo) (bi : Branches) :
    (bi = [] ∧ from_branches r bi = Except.error GErr.noBranches) ∨
    (∃ t, from_branches r bi = Except.ok t ∧ GoodTree t) ∨
    from_branches r bi = Except.error GErr.noMergeBase := by
  by_cases hne : bi = []
  · subst hne
    exact Or.inl ⟨rfl, by simp [from_branches, biIsEmpty]⟩
  · obtain ⟨first, rest, hsort⟩ :=
      List.exists_cons_of_ne_nil (sortOids_biOids_ne_nil hne)
    rw [from_branches_eq r bi hne hsort]
    obtain ⟨hGroot, hrootid⟩ := root_good first bi
    rcases insertAll_good r rest (Node.new first bi).1 (Node.new first bi).2 hGroot with
      ⟨t2, h2, hG2, _⟩ | herr
    · exact Or.inr (Or.inl ⟨t2, h2, hG2⟩)
    · exact Or.inr (Or.inr herr)

/-- C4: graph construction fails with an explicit error in exactly two input
conditions — for a well-formed Branch Index, an empty index yields the
"no branches to graph" error, a non-empty index whose tips all share a
common history root builds successfully, and a non-empty index containing
two tips with disjoint histories fails with the "Could not find merge base"
error; no other outcome (in particular no assertion failure) occurs. -/
theorem c4_error_conditions (r : CRepo) (bi : Branches) (hwf : wfIndex bi) :
    (bi = [] → from_branches r bi = Except.error GErr.noBranches) ∧
    (bi ≠ [] → (∀ a ∈ biOids bi, ∀ b ∈ biOids bi, croot r a = croot r b) →
      ∃ t, from_branches r bi = Except.ok t) ∧
    (bi ≠ [] → (∃ a ∈ biOids bi, ∃ b ∈ biOids bi, croot r a ≠ croot r b) →
      from_branches r bi = Except.error GErr.noMergeBase) := by
  refine ⟨?_, ?_, ?_⟩
  · intro h
    subst h
    simp [from_branches, biIsEmpty]
  · intro hne hall
    obtain ⟨first, rest, hsort⟩ :=
      List.exists_cons_of_ne_nil (sortOids_biOids_ne_nil hne)
    rw [from_branches_eq r bi hne hsort]
    obtain ⟨hGroot, hrootid⟩ := root_good first bi
    have hfirstmem : first ∈ biOids bi := by
      have := (sortOids_perm bi (biOids bi)).mem_iff.mp
        (by rw [hsort]; exact List.mem_cons_self _ _)
      exact this
    obtain ⟨t2, h2, _, _⟩ :=
      insertAll_same_croot r rest (Node.new first bi).1 (Node.new first bi).2 hGroot
        (by
          intro tip htip
          rw [hrootid]
          have htipmem : tip ∈ biOids bi :=
            (sortOids_perm bi (biOids bi)).mem_iff.mp
              (by rw [hsort]; exact List.mem_cons_of_mem _ htip)
          exact hall tip htipmem first hfirstmem)
    exact ⟨t2, h2⟩
  · intro hne hbad
    obtain ⟨first, rest, hsort⟩ :=
      List.exists_cons_of_ne_nil (sortOids_biOids_ne_nil hne)
    rw [from_branches_eq r bi hne hsort]
    obtain ⟨hGroot, hrootid⟩ := root_good first bi
    obtain ⟨a, ha, b, hb, hab⟩ := hbad
    have hmem : ∀ x ∈ biOids bi, x = first ∨ x ∈ rest := by
      intro x hx
      have := (sortOids_perm bi (biOids bi)).mem_iff.mpr hx
      rw [hsort] at this
      exact List.mem_cons.mp this
    refine insertAll_bad r rest (Node.new first bi).1 (Node.new first bi).2 hGroot ?_
    rw [hrootid]
    by_cases hfa : croot r a = croot r first
    · have hfb : croot r b ≠ croot r first := by
        intro hc
        exact hab (hfa.trans hc.symm)
      rcases hmem b hb with rfl | hbrest
      · exact absurd rfl hfb
      · exact ⟨b, hbrest, hfb⟩
    · rcases hmem a ha with rfl | harest
      · exact absurd rfl hfa
      · exact ⟨a, harest, hfa⟩

theorem c4_witness :
    wfIndex chainIndex ∧
    (∃ t, from_branches chainRepo chainIndex = Except.ok t) :=
  ⟨by unfold wfIndex; decide,
   (c4_error_conditions chainRepo chainIndex (by unfold wfIndex; decide)).2.1
     (by decide) (by decide)⟩

/-- C10: for every repository and branch indexes, the internal assertions of
the merge machinery (equal commit ids in `merge_stacks`, non-empty stored
stacks, linear split-off right-hand nodes, a found push target) never fire:
`from_branches` never returns the assertion-failure outcome, and neither does
`extend` on any tree `from_branches` produced. -/
theorem c10_no_assert (r : CRepo) (bi bi2 : Branches) (hwf : wfIndex bi)
    (hwf2 : wfIndex bi2) :
    from_branches r bi ≠ Except.error GErr.assertFail ∧
    ∀ t, from_branches r bi = Except.ok t →
      Node.extend t r bi2 ≠ Except.error GErr.assertFail := by
  constructor
  · rcases from_branches_cases r bi with ⟨_, h⟩ | ⟨t, h, _⟩ | h <;> rw [h] <;> simp
  · intro t ht
    rcases from_branches_cases r bi with ⟨_, h⟩ | ⟨t2, h, hG⟩ | h
    · rw [ht] at h
      exact absurd h (by simp)
    · rw [ht] at h
      have hteq : t2 = t := by
        have := Except.ok.inj h
        exact this.symm
      subst hteq
      unfold Node.extend
      by_cases hbi2 : biIsEmpty bi2 = true
      · rw [if_pos hbi2]
        simp
      · rw [if_neg hbi2]
        rcases insertAll_good r (sortOids bi2 (biOids bi2)) t2 bi2 hG with
          ⟨t3, h3, _, _⟩ | herr
        · rw [h3]
          simp
        · rw [herr]
          simp
    · rw [ht] at h
      exact absurd h (by simp)

theorem c10_witness :
    wfIndex chainIndex ∧ wfIndex ([] : Branches) ∧
    from_branches chainRepo chainIndex ≠ Except.error GErr.assertFail :=
  ⟨by unfold wfIndex; decide, by unfold wfIndex; decide,
   (c10_no_assert chainRepo chainIndex []
     (by unfold wfIndex; decide) (by unfold wfIndex; decide)).1⟩

/-- C9: the builder's processing order is deterministic — for a non-empty
index whose per-tip name lists are sorted, the tip list the builder uses is a
permutation of the index keys sorted (stably) by the per-tip sort key, that
key is less-or-equal to every branch name at its tip (it is the
lexicographically-first name there), and `from_branches` is exactly: seed the
root from the first sorted tip, then insert the remaining tips in sorted
order. -/
theorem c9_deterministic_order (r : CRepo) (bi : Branches) (hne : bi ≠ [])
    (hsorted : ∀ p ∈ bi, p.2.Pairwise (fun a b => strLtB a b = true)) :
    ∃ first rest, sortOids bi (biOids bi) = first :: rest ∧
      (sortOids bi (biOids bi)).Perm (biOids bi) ∧
      (sortOids bi (biOids bi)).Pairwise
        (fun a b => strLeB (sortKey bi a) (sortKey bi b) = true) ∧
      from_branches r bi =
        insertAll r (Node.new first bi).1 rest (Node.new first bi).2 ∧
      (∀ id ∈ biOids bi, ∀ nm ∈ (biGet bi id).getD [],
        strLeB (sortKey bi id) nm = true) := by
  obtain ⟨first, rest, hsort⟩ :=
    List.exists_cons_of_ne_nil (sortOids_biOids_ne_nil hne)
  refine ⟨first, rest, hsort, sortOids_perm bi (biOids bi),
    sortOids_pairwise bi (biOids bi), from_branches_eq r bi hne hsort, ?_⟩
  intro id hid nm hnm
  obtain ⟨l, hget, hmem⟩ := biGet_mem hid
  rw [hget] at hnm
  simp only [Option.getD_some] at hnm
  have hkey : sortKey bi id = l.headD ("") := by
    simp [sortKey, hget]
  rw [hkey]
  exact sorted_head_le l (hsorted (id, l) hmem) nm hnm

theorem c9_witness :
    chainIndex ≠ [] ∧
    (∀ p ∈ chainIndex, p.2.Pairwise (fun a b => strLtB a b = true)) ∧
    (∃ first rest, sortOids chainIndex (biOids chainIndex) = first :: rest ∧
      (sortOids chainIndex (biOids chainIndex)).Perm (biOids chainIndex) ∧
      (sortOids chainIndex (biOids chainIndex)).Pairwise
        (fun a b => strLeB (sortKey chainIndex a) (sortKey chainIndex b) = true) ∧
      from_branches chainRepo chainIndex =
        insertAll chainRepo (Node.new first chainIndex).1 rest
          (Node.new first chainIndex).2 ∧
      (∀ id ∈ biOids chainIndex, ∀ nm ∈ (biGet chainIndex id).getD [],
        strLeB (sortKey chainIndex id) nm = true)) :=
  ⟨by decide, by decide,
   c9_deterministic_order chainRepo chainIndex (by decide) (by decide)⟩
